import Mathlib

/-!
# Verification of the fissile package-compilation orchestrator

This development embeds the data model and operations of the fissile
package-compilation orchestrator (the `compilator` package and its
collaborators in the `model` package) and proves the behavioural
properties stated in the specification.

The repository snapshot contains the orchestrator's tests
(`TestCreateDepBuckets`, `TestCompilationBasic`, ...) and callers, but not
`compilator.go` itself, so the orchestrator operations (`createDepBuckets`,
`gatherPackages`, `removeCompiledPackages`, `Compile`, `compilePackage`)
are modelled from the specification; the test-suite helper `genTestCase`
is translated directly from the test source.
-/

namespace Fissile

/-- A package of a release.  Identity is the content `fingerprint`;
dependencies are recorded by reference, modelled here as the list of the
dependency packages' fingerprints, resolved against the package set in
play (the Go code uses pointers; pointer identity coincides with
fingerprint identity inside one well-formed package set). -/
structure Package where
  name : String
  fingerprint : String
  dependencies : List String
deriving Repr, DecidableEq, Inhabited

/-- A named release owning a list of packages. -/
structure Release where
  name : String
  packages : List Package
deriving Repr, DecidableEq, Inhabited

/-- A job of a role manifest, referencing packages by fingerprint. -/
structure Job where
  name : String
  packageFps : List String
deriving Repr, DecidableEq, Inhabited

/-- A role of a role manifest. -/
structure Role where
  name : String
  jobs : List Job
deriving Repr, DecidableEq, Inhabited

/-- A deployment descriptor (role manifest). -/
structure RoleManifest where
  roles : List Role
deriving Repr, DecidableEq, Inhabited

/-- Malformed/cyclic dependency input, reported before any build starts.
The payload names the packages whose depth computation failed. -/
inductive GraphError where
  | cycle (names : List String)
deriving Repr, DecidableEq

/-- Resolve a fingerprint to its package in a package set (first match). -/
def findPkg (pkgs : List Package) (fp : String) : Option Package :=
  pkgs.find? (fun p => p.fingerprint == fp)

/-- One step of the depth fold over a dependency list: combine the depth
`m` accumulated so far with the depth of the dependency `fp`, computed by
`f` after resolving `fp` in the set.  A dependency that does not resolve
in the set (it was pruned as already compiled) imposes no constraint. -/
def depsFold (pkgs : List Package) (f : Package → Option Nat) :
    List String → Option Nat
  | [] => some 0
  | fp :: rest =>
    match depsFold pkgs f rest with
    | none => none
    | some m =>
      match findPkg pkgs fp with
      | none => some m
      | some d =>
        match f d with
        | none => none
        | some dd => some (Nat.max m (dd + 1))

/-- Modelled from the spec: the *depth* of a package (`compilator.go`'s
`createDepBuckets` is not in the snapshot) — `0` for a package with no
dependencies and `1 + max(depth of each dependency)` otherwise.
Recursion is bounded by fuel, which the caller sets to the package-set
size; exhausting the fuel (a cycle) yields `none`. -/
def depthOfPkg (pkgs : List Package) : Nat → Package → Option Nat
  | 0, _ => none
  | fuel + 1, p => depsFold pkgs (fun d => depthOfPkg pkgs fuel d) p.dependencies

/-- The depth of a package in a package set, with the fuel bound set to
the package-set size as the specification prescribes. -/
def depthsOf (pkgs : List Package) (p : Package) : Option Nat :=
  depthOfPkg pkgs pkgs.length p

/-- Depth as a natural number (`0` when the computation failed). -/
def depthNat (pkgs : List Package) (p : Package) : Nat :=
  (depthsOf pkgs p).getD 0

/-- Sort key of a package: its depth, then its fingerprint, giving the
stable within-level order the specification asks for. -/
def pkgKey (pkgs : List Package) (p : Package) : Nat × String :=
  (depthNat pkgs p, p.fingerprint)

/-- Byte-wise (code-point-wise) comparison of character lists, the order
Go uses on strings. -/
def charListLE : List Char → List Char → Bool
  | [], _ => true
  | _ :: _, [] => false
  | a :: as, b :: bs =>
    if a.toNat < b.toNat then true
    else if b.toNat < a.toNat then false
    else charListLE as bs

/-- Code-point-wise string comparison. -/
def strLE (a b : String) : Bool :=
  charListLE a.data b.data

theorem charListLE_total (a b : List Char) :
    charListLE a b = true ∨ charListLE b a = true := by
  induction a generalizing b with
  | nil => exact Or.inl rfl
  | cons x xs ih =>
    cases b with
    | nil => exact Or.inr rfl
    | cons y ys =>
      rcases Nat.lt_trichotomy x.toNat y.toNat with h | h | h
      · left
        simp [charListLE, h]
      · rcases ih ys with h2 | h2
        · left
          simp [charListLE, h, h2]
        · right
          simp [charListLE, h.symm, h2]
      · right
        simp [charListLE, h]

theorem charListLE_trans (a b c : List Char) (hab : charListLE a b = true)
    (hbc : charListLE b c = true) : charListLE a c = true := by
  induction a generalizing b c with
  | nil => rfl
  | cons x xs ih =>
    cases b with
    | nil => simp [charListLE] at hab
    | cons y ys =>
      cases c with
      | nil => simp [charListLE] at hbc
      | cons z zs =>
        simp only [charListLE] at hab hbc ⊢
        by_cases hxy : x.toNat < y.toNat <;>
          by_cases hyz : y.toNat < z.toNat <;>
          simp [hxy, hyz] at hab hbc ⊢
        · omega
        · rcases hbc with ⟨hzy, hbc⟩
          have hxz : x.toNat < z.toNat := by omega
          simp [hxz]
        · rcases hab with ⟨hyx, hab⟩
          have hxz : x.toNat < z.toNat := by omega
          simp [hxz]
        · rcases hab with ⟨hyx, hab⟩
          rcases hbc with ⟨hzy, hbc⟩
          have hxz : ¬ x.toNat < z.toNat := by omega
          have hzx : ¬ z.toNat < x.toNat := by omega
          simp [hxz, hzx]
          refine ⟨by omega, ih ys zs hab hbc⟩

theorem charListLE_antisymm (a b : List Char) (hab : charListLE a b = true)
    (hba : charListLE b a = true) : a = b := by
  induction a generalizing b with
  | nil =>
    cases b with
    | nil => rfl
    | cons y ys => simp [charListLE] at hba
  | cons x xs ih =>
    cases b with
    | nil => simp [charListLE] at hab
    | cons y ys =>
      rcases Nat.lt_trichotomy x.toNat y.toNat with h | h | h
      · exfalso
        have hyx : ¬ y.toNat < x.toNat := Nat.lt_asymm h
        simp [charListLE, h, hyx] at hba
      · have hxy : ¬ x.toNat < y.toNat := by omega
        have hyx : ¬ y.toNat < x.toNat := by omega
        simp only [charListLE, if_neg hxy, if_neg hyx] at hab
        simp only [charListLE, if_neg hyx, if_neg hxy] at hba
        have hx : x = y := by
          have h1 := Char.ofNat_toNat x
          have h2 := Char.ofNat_toNat y
          rw [← h1, ← h2, h]
        exact hx ▸ congrArg (List.cons x) (ih ys hab hba)
      · exfalso
        have hxy : ¬ x.toNat < y.toNat := Nat.lt_asymm h
        simp [charListLE, hxy, h] at hab

/-- The lexicographic order on sort keys. -/
def keyLEP (a b : Nat × String) : Prop :=
  a.1 < b.1 ∨ (a.1 = b.1 ∧ strLE a.2 b.2 = true)

instance : DecidableRel keyLEP := fun a b => by
  unfold keyLEP
  infer_instance

instance : IsTotal (Nat × String) keyLEP where
  total a b := by
    rcases Nat.lt_trichotomy a.1 b.1 with h | h | h
    · exact Or.inl (Or.inl h)
    · rcases charListLE_total a.2.data b.2.data with h2 | h2
      · exact Or.inl (Or.inr ⟨h, h2⟩)
      · exact Or.inr (Or.inr ⟨h.symm, h2⟩)
    · exact Or.inr (Or.inl h)

instance : IsTrans (Nat × String) keyLEP where
  trans a b c hab hbc := by
    rcases hab with h1 | ⟨h1, h1'⟩ <;> rcases hbc with h2 | ⟨h2, h2'⟩
    · exact Or.inl (h1.trans h2)
    · exact Or.inl (h2 ▸ h1)
    · exact Or.inl (h1 ▸ h2)
    · exact Or.inr ⟨h1.trans h2, charListLE_trans _ _ _ h1' h2'⟩

instance : IsAntisymm (Nat × String) keyLEP where
  antisymm a b hab hba := by
    rcases hab with h1 | ⟨h1, h1'⟩ <;> rcases hba with h2 | ⟨h2, h2'⟩
    · exact absurd h2 (Nat.lt_asymm h1)
    · exact absurd h1 (h2 ▸ lt_irrefl _)
    · exact absurd h2 (h1 ▸ lt_irrefl _)
    · refine Prod.ext h1 ?_
      have := charListLE_antisymm a.2.data b.2.data h1' h2'
      cases ha : a.2 with
      | mk la =>
        cases hb : b.2 with
        | mk lb =>
          have : la = lb := by
            have h3 := this
            rw [ha, hb] at h3
            exact h3
          rw [this]

/-- Modelled from the spec: `createDepBuckets` (missing `compilator.go`).
Computes every package's depth; if any depth computation fails the input
contains a cycle and a descriptive `GraphError` naming the offending
packages is returned.  Otherwise the packages are emitted in increasing
depth order (grouping by depth gives the levels), stably ordered inside a
level by fingerprint. -/
def createDepBuckets (pkgs : List Package) : Except GraphError (List Package) :=
  let failed := pkgs.filter (fun p => (depthsOf pkgs p).isNone)
  if failed.isEmpty then
    let keys := pkgs.map (pkgKey pkgs)
    Except.ok ((keys.insertionSort keyLEP).filterMap (fun k => findPkg pkgs k.2))
  else
    Except.error (GraphError.cycle (failed.map (fun p => p.name)))

/-- Modelled from the spec: the ordered levels view of the bucket
builder's output — level `d` holds exactly the packages of depth `d`. -/
def createDepLevels (pkgs : List Package) :
    Except GraphError (List (List Package)) :=
  (createDepBuckets pkgs).map (fun flat =>
    (List.range ((flat.map (depthNat pkgs)).foldr Nat.max 0 + 1)).map
      (fun d => flat.filter (fun p => depthNat pkgs p == d)))

/-- The levels with packages projected to their fingerprints, the form the
build scheduler consumes. -/
def pkgLevelsFps (pkgs : List Package) :
    Except GraphError (List (List String)) :=
  (createDepLevels pkgs).map (fun lv => lv.map (fun l => l.map (fun p => p.fingerprint)))

/-- Transitive reachability along dependency edges of a package set: `fp`
(resolved in the set) lists `d` as a dependency, or a chain of such
edges. -/
inductive Reaches (pkgs : List Package) : String → String → Prop where
  | base (a d : String) (p : Package) (hf : findPkg pkgs a = some p)
      (hd : d ∈ p.dependencies) : Reaches pkgs a d
  | trans (a b c : String) : Reaches pkgs a b → Reaches pkgs b c →
      Reaches pkgs a c

/-- The package set has pairwise distinct fingerprints. -/
def nodupFps (pkgs : List Package) : Prop :=
  (pkgs.map (fun p => p.fingerprint)).Nodup

instance (pkgs : List Package) : Decidable (nodupFps pkgs) := by
  unfold nodupFps
  infer_instance

/-- The dependency graph is acyclic, witnessed by a topological rank
bounded by the package-set size (every finite DAG admits such a rank:
index packages in a topological order). -/
def AcyclicBounded (pkgs : List Package) : Prop :=
  ∃ rank : String → Nat,
    (∀ p ∈ pkgs, rank p.fingerprint < pkgs.length) ∧
    (∀ p ∈ pkgs, ∀ fp ∈ p.dependencies, ∀ q, findPkg pkgs fp = some q →
      rank q.fingerprint < rank p.fingerprint)

/-- Every dependency of a member of the set resolves in the set. -/
def ClosedDeps (pkgs : List Package) : Prop :=
  ∀ p ∈ pkgs, ∀ fp ∈ p.dependencies, (findPkg pkgs fp).isSome = true

instance (pkgs : List Package) : Decidable (ClosedDeps pkgs) := by
  unfold ClosedDeps
  infer_instance

/-! ## Package filter -/

/-- All packages of all loaded releases, in release order. -/
def allOf (releases : List Release) : List Package :=
  releases.flatMap (fun r => r.packages)

/-- Keep only the first package of each distinct fingerprint, skipping any
whose fingerprint was already `seen`. -/
def dedupByFpAux (seen : List String) : List Package → List Package
  | [] => []
  | p :: rest =>
    if p.fingerprint ∈ seen then dedupByFpAux seen rest
    else p :: dedupByFpAux (p.fingerprint :: seen) rest

/-- First-wins deduplication of a package list by fingerprint (the
scheduler guarantees at most one build per distinct fingerprint, so the
gather step keeps a single representative per fingerprint). -/
def dedupByFp (pkgs : List Package) : List Package :=
  dedupByFpAux [] pkgs

/-- The direct dependencies of a fingerprint, resolved in the set. -/
def depsOfFp (pkgs : List Package) (fp : String) : List String :=
  ((findPkg pkgs fp).map (fun p => p.dependencies)).getD []

/-- One round of transitive expansion: add every not-yet-collected direct
dependency of a collected fingerprint. -/
def expandOnce (pkgs : List Package) (acc : List String) : List String :=
  acc ++ ((acc.flatMap (depsOfFp pkgs)).filter (fun d => ¬ d ∈ acc)).dedup

/-- Iterate `expandOnce` a given number of rounds. -/
def iterEx (pkgs : List Package) : Nat → List String → List String
  | 0, acc => acc
  | n + 1, acc => iterEx pkgs n (expandOnce pkgs acc)

/-- The transitive closure of a seed set of fingerprints under dependency
edges of the package set; enough rounds are run to reach saturation. -/
def closureList (pkgs : List Package) (seed : List String) : List String :=
  iterEx pkgs ((seed ++ pkgs.flatMap (fun p => p.dependencies)).length + 1) seed.dedup

/-- The package fingerprints referenced by the jobs of a role manifest. -/
def referencedFps (m : RoleManifest) : List String :=
  m.roles.flatMap (fun r => r.jobs.flatMap (fun j => j.packageFps))

/-- Modelled from the spec: `gatherPackages` (missing `compilator.go`).
Union all packages across all releases; with a deployment descriptor,
restrict to packages reachable from its referenced jobs, expanded
transitively through dependency edges.  One package is kept per distinct
fingerprint, the first encountered. -/
def gatherPackages (releases : List Release) (manifest : Option RoleManifest) :
    List Package :=
  match manifest with
  | none => dedupByFp (allOf releases)
  | some m =>
    let all := allOf releases
    let reach := closureList all (referencedFps m)
    dedupByFp (all.filter (fun p => p.fingerprint ∈ reach))

/-- Whether a package's compiled artifact exists in the cache, which is
keyed by fingerprint. -/
def isCompiledIn (cache : List String) (p : Package) : Bool :=
  p.fingerprint ∈ cache

/-- Modelled from the spec: `removeCompiledPackages` (missing
`compilator.go`).  Drops every candidate whose own compiled artifact
already exists, independently per package. -/
def removeCompiledPackages (isCompiled : Package → Bool)
    (pkgs : List Package) : List Package :=
  pkgs.filter (fun p => ¬ isCompiled p)

/-! ## Build scheduler (functional result view, for error aggregation) -/

/-- The transitive dependency fingerprints of a fingerprint. -/
def transDepFps (pkgs : List Package) (fp : String) : List String :=
  closureList pkgs (depsOfFp pkgs fp)

/-- Whether a package depends, directly or transitively, on any package of
the given list of failed fingerprints. -/
def dependsOnFailed (pkgs : List Package) (fp : String)
    (failed : List String) : Bool :=
  (transDepFps pkgs fp).any (fun d => failed.contains d)

/-- Modelled from the spec: the scheduler's failure bookkeeping.  Levels
are processed in order; a package depending (transitively) on an already
failed package is recorded as skipped, otherwise its build is attempted
and a failure is recorded; the run never aborts early. -/
def processLevels (pkgs : List Package) (build : String → Bool)
    (levels : List (List String)) : List String × List String :=
  levels.foldl
    (fun acc level =>
      level.foldl
        (fun fs fp =>
          if dependsOnFailed pkgs fp fs.1 then (fs.1, fs.2 ++ [fp])
          else if build fp then fs
          else (fs.1 ++ [fp], fs.2))
        acc)
    ([], [])

/-- A run-level error: fatal graph error, or the aggregation of every
failed and every skipped package of a finished run. -/
inductive CompileError where
  | graph (e : GraphError)
  | aggregated (failed skipped : List String)
deriving Repr, DecidableEq

/-- Modelled from the spec: `Compile` (missing `compilator.go`) viewed
through its final result.  Gather, prune, level, then process every
level, returning success exactly when no package failed and none was
skipped; `build fp = true` means the package's build succeeded. -/
def compile (releases : List Release) (manifest : Option RoleManifest)
    (cache : List String) (build : String → Bool) : Except CompileError Unit :=
  let pkgs := removeCompiledPackages (isCompiledIn cache)
    (gatherPackages releases manifest)
  match pkgLevelsFps pkgs with
  | Except.error e => Except.error (CompileError.graph e)
  | Except.ok levels =>
    let fs := processLevels pkgs build levels
    if fs.1.isEmpty && fs.2.isEmpty then Except.ok ()
    else Except.error (CompileError.aggregated fs.1 fs.2)

/-! ## Build scheduler (small-step view, for concurrency properties) -/

/-- An observable build event: a package's build starting or
terminating. -/
inductive Ev where
  | start (fp : String)
  | finish (fp : String)
deriving Repr, DecidableEq

/-- The scheduler state: the pending packages of the current level, the
currently running builds, the levels not yet begun, and the event trace
so far (chronological order). -/
structure SchedSt where
  current : List String
  running : List String
  rest : List (List String)
  trace : List Ev
deriving Repr, DecidableEq

/-- Modelled from the spec: one scheduler transition with worker bound
`W`.  A new level may begin only when the previous one has fully drained;
a pending package may start while a worker slot is free; a running build
may terminate at any time. -/
inductive SchedStep (W : Nat) : SchedSt → SchedSt → Prop where
  | advance (l : List String) (ls : List (List String)) (tr : List Ev) :
      SchedStep W ⟨[], [], l :: ls, tr⟩ ⟨l, [], ls, tr⟩
  | startB (fp : String) (cur run : List String) (rest : List (List String))
      (tr : List Ev) (hm : fp ∈ cur) (hw : run.length < W) :
      SchedStep W ⟨cur, run, rest, tr⟩
        ⟨cur.erase fp, fp :: run, rest, tr ++ [Ev.start fp]⟩
  | finishB (fp : String) (cur run : List String) (rest : List (List String))
      (tr : List Ev) (hm : fp ∈ run) :
      SchedStep W ⟨cur, run, rest, tr⟩
        ⟨cur, run.erase fp, rest, tr ++ [Ev.finish fp]⟩

/-- The states the scheduler can reach from the initial state on the
given levels. -/
def Reached (W : Nat) (levels : List (List String)) (s : SchedSt) : Prop :=
  Relation.ReflTransGen (SchedStep W) ⟨[], [], levels, []⟩ s

/-! ## Package build driver (container lifecycle) -/

/-- An operation on the container runtime. -/
inductive DockerOp where
  | create (id : String)
  | destroy (id : String)
deriving Repr, DecidableEq

/-- Apply a container operation to the set of existing containers. -/
def applyOp (st : List String) : DockerOp → List String
  | DockerOp.create id => st ++ [id]
  | DockerOp.destroy id => st.erase id

/-- Apply a sequence of container operations. -/
def applyOps (st : List String) (ops : List DockerOp) : List String :=
  ops.foldl applyOp st

/-- Modelled from the spec: the container operations `compilePackage`
(missing `compilator.go`) performs.  A cache hit short-circuits without
touching the runtime; otherwise a disposable container is created, and it
is destroyed afterwards unless the build failed and the retention flag
asks to keep it for inspection. -/
def compilePackageOps (keepContainer succeeded alreadyCompiled : Bool)
    (id : String) : List DockerOp :=
  if alreadyCompiled then []
  else if succeeded then [DockerOp.create id, DockerOp.destroy id]
  else if keepContainer then [DockerOp.create id]
  else [DockerOp.create id, DockerOp.destroy id]

/-! ## The test-suite scenario builder, translated from `genTestCase` -/

/-- Split a character list at every occurrence of the separator. -/
def splitCharList (c : Char) : List Char → List (List Char)
  | [] => [[]]
  | x :: xs =>
    match splitCharList c xs with
    | [] => [[]]
    | y :: ys => if x = c then [] :: y :: ys else (x :: y) :: ys

/-- Split a string on a single-character separator (the behaviour of Go's
`strings.Split` for the separators `genTestCase` uses). -/
def splitOnS (c : Char) (s : String) : List String :=
  (splitCharList c s.data).map (fun l => String.mk l)

/-- Translated from the test source: `genTestCase` builds one release
named `test-release` from package definitions of the form
`name[:fingerprint][>dep1,dep2,...]`; a dependency's fingerprint is the
dependency string itself. -/
def genTestCase (args : List String) : List Release :=
  let pkgs := args.map (fun pkgDef =>
    let splits := splitOnS '>' pkgDef
    let nameFp := splits.headD ""
    let deps := if splits.length == 2 then splitOnS ',' (splits.getD 1 "") else []
    let splits2 := splitOnS ':' nameFp
    let name := splits2.headD ""
    let fp := if splits2.length == 2 then splits2.getD 1 "" else name
    { name := name, fingerprint := fp, dependencies := deps : Package })
  [{ name := "test-release", packages := pkgs }]

/-! ## Concrete scenarios used by the tests -/

/-- The `{ruby-2.5, consul→go-1.4, go-1.4}` scenario of the compilation
tests. -/
def basicReleases : List Release :=
  genTestCase ["ruby-2.5", "consul>go-1.4", "go-1.4"]

/-- The package set `Compile` works on in the basic scenario with an
empty artifact cache. -/
def basicPkgs : List Package :=
  removeCompiledPackages (isCompiledIn []) (gatherPackages basicReleases none)

/-- The tor release of the role-manifest compilation test: `tor` depends
on `libevent`, and `boguspackage` is referenced by nothing. -/
def torRelease : Release :=
  ⟨"tor", [⟨"tor", "tor-fp", ["libevent-fp"]⟩,
           ⟨"libevent", "libevent-fp", []⟩,
           ⟨"boguspackage", "bogus-fp", []⟩]⟩

/-- The role manifest of the role-manifest compilation test: it references
the `tor` job, which uses only the `tor` package. -/
def torManifest : RoleManifest :=
  ⟨[⟨"myrole", [⟨"tor", ["tor-fp"]⟩]⟩]⟩

/-! ## Lemmas about fingerprint resolution -/

theorem findPkg_mem {pkgs : List Package} {fp : String} {p : Package}
    (h : findPkg pkgs fp = some p) : p ∈ pkgs :=
  List.mem_of_find?_eq_some h

theorem findPkg_fp {pkgs : List Package} {fp : String} {p : Package}
    (h : findPkg pkgs fp = some p) : p.fingerprint = fp := by
  have := List.find?_some h
  simpa using this

theorem fp_inj {pkgs : List Package} (hfp : nodupFps pkgs) {p q : Package}
    (hp : p ∈ pkgs) (hq : q ∈ pkgs)
    (h : p.fingerprint = q.fingerprint) : p = q :=
  List.inj_on_of_nodup_map hfp hp hq h

theorem findPkg_self {pkgs : List Package} (hfp : nodupFps pkgs)
    {q : Package} (hq : q ∈ pkgs) : findPkg pkgs q.fingerprint = some q := by
  cases h : findPkg pkgs q.fingerprint with
  | none =>
    rw [findPkg, List.find?_eq_none] at h
    exact absurd (by simp) (h q hq)
  | some r =>
    have hr := findPkg_mem h
    have := findPkg_fp h
    exact congrArg some (fp_inj hfp hr hq this)

theorem nodupFps_perm {pkgs₁ pkgs₂ : List Package} (hperm : pkgs₁.Perm pkgs₂)
    (hfp : nodupFps pkgs₁) : nodupFps pkgs₂ := by
  unfold nodupFps at hfp ⊢
  exact (List.Perm.nodup_iff (hperm.map _)).mp hfp

theorem findPkg_perm {pkgs₁ pkgs₂ : List Package} (hperm : pkgs₁.Perm pkgs₂)
    (hfp : nodupFps pkgs₁) (fp : String) :
    findPkg pkgs₁ fp = findPkg pkgs₂ fp := by
  have hfp₂ : nodupFps pkgs₂ := nodupFps_perm hperm hfp
  cases h : findPkg pkgs₁ fp with
  | none =>
    rw [findPkg, List.find?_eq_none] at h
    cases h2 : findPkg pkgs₂ fp with
    | none => rfl
    | some r =>
      have hr := findPkg_mem h2
      exact absurd (by simp [findPkg_fp h2]) (h r (hperm.mem_iff.mpr hr))
  | some p =>
    have hp : p ∈ pkgs₂ := hperm.mem_iff.mp (findPkg_mem h)
    rw [← findPkg_fp h]
    exact (findPkg_self hfp₂ hp).symm

/-! ## Lemmas about depth computation -/

theorem depsFold_cons (pkgs : List Package) (f : Package → Option Nat)
    (fp : String) (rest : List String) :
    depsFold pkgs f (fp :: rest) =
      match depsFold pkgs f rest with
      | none => none
      | some m =>
        match findPkg pkgs fp with
        | none => some m
        | some d =>
          match f d with
          | none => none
          | some dd => some (Nat.max m (dd + 1)) := rfl

theorem depsFold_isSome {pkgs : List Package} {f : Package → Option Nat}
    {l : List String}
    (h : ∀ fp ∈ l, ∀ d, findPkg pkgs fp = some d → (f d).isSome = true) :
    (depsFold pkgs f l).isSome = true := by
  induction l with
  | nil => rfl
  | cons fp rest ih =>
    have hrest := ih (fun a ha d hd => h a (List.mem_cons_of_mem _ ha) d hd)
    rcases ho : depsFold pkgs f rest with _ | m
    · rw [ho] at hrest; simp at hrest
    · rcases hd : findPkg pkgs fp with _ | d
      · simp [depsFold_cons, ho, hd]
      · have hds := h fp (List.mem_cons_self fp rest) d hd
        rcases hfd : f d with _ | dd
        · rw [hfd] at hds; simp at hds
        · simp [depsFold_cons, ho, hd, hfd]

theorem depsFold_up {pkgs : List Package} {f g : Package → Option Nat}
    (hfg : ∀ d v, f d = some v → g d = some v) :
    ∀ {l : List String} {m : Nat}, depsFold pkgs f l = some m →
      depsFold pkgs g l = some m := by
  intro l
  induction l with
  | nil => intro m h; exact h
  | cons fp rest ih =>
    intro m h
    rcases hr : depsFold pkgs f rest with _ | m'
    · rw [depsFold_cons, hr] at h; exact absurd h (by simp)
    · simp only [depsFold_cons, hr] at h
      rcases hd : findPkg pkgs fp with _ | d
      · simp only [hd] at h
        simp [depsFold_cons, ih hr, hd, h]
      · simp only [hd] at h
        rcases hfd : f d with _ | dd
        · simp only [hfd] at h; exact absurd h (by simp)
        · simp only [hfd] at h
          simp [depsFold_cons, ih hr, hd, hfg d dd hfd, h]

theorem depsFold_le {pkgs : List Package} {f : Package → Option Nat}
    {l : List String} {m : Nat} (h : depsFold pkgs f l = some m) :
    ∀ fp ∈ l, ∀ d, findPkg pkgs fp = some d →
      ∃ dd, f d = some dd ∧ dd + 1 ≤ m := by
  induction l generalizing m with
  | nil => intro fp hfp; exact absurd hfp (List.not_mem_nil fp)
  | cons fp0 rest ih =>
    intro fp hfp d hd
    rcases hr : depsFold pkgs f rest with _ | m'
    · rw [depsFold_cons, hr] at h; exact absurd h (by simp)
    · simp only [depsFold_cons, hr] at h
      rcases List.mem_cons.mp hfp with heq | hmem
      · subst heq
        simp only [hd] at h
        rcases hfd : f d with _ | dd
        · simp only [hfd] at h; exact absurd h (by simp)
        · simp only [hfd, Option.some.injEq] at h
          exact ⟨dd, rfl, h ▸ Nat.le_max_right m' (dd + 1)⟩
      · rcases ih hr fp hmem d hd with ⟨dd, hfd, hle⟩
        refine ⟨dd, hfd, ?_⟩
        rcases hd0 : findPkg pkgs fp0 with _ | d0
        · simp only [hd0, Option.some.injEq] at h
          omega
        · simp only [hd0] at h
          rcases hfd0 : f d0 with _ | dd0
          · simp only [hfd0] at h; exact absurd h (by simp)
          · simp only [hfd0, Option.some.injEq] at h
            exact le_trans hle (h ▸ Nat.le_max_left m' (dd0 + 1))

theorem depthOfPkg_mono {pkgs : List Package} :
    ∀ {fuel fuel' : Nat} {p : Package} {v : Nat}, fuel ≤ fuel' →
      depthOfPkg pkgs fuel p = some v → depthOfPkg pkgs fuel' p = some v := by
  intro fuel
  induction fuel with
  | zero => intro fuel' p v _ h; exact absurd h (by simp [depthOfPkg])
  | succ e ih =>
    intro fuel' p v hle h
    cases fuel' with
    | zero => omega
    | succ e' =>
      simp only [depthOfPkg] at h ⊢
      exact depsFold_up (fun d w hw => ih (by omega) hw) h

theorem depth_succeeds {pkgs : List Package} {rank : String → Nat}
    (hdec : ∀ p ∈ pkgs, ∀ fp ∈ p.dependencies, ∀ q, findPkg pkgs fp = some q →
      rank q.fingerprint < rank p.fingerprint) :
    ∀ fuel, ∀ p ∈ pkgs, rank p.fingerprint < fuel →
      (depthOfPkg pkgs fuel p).isSome = true := by
  intro fuel
  induction fuel with
  | zero => intro p _ h; omega
  | succ e ih =>
    intro p hp hr
    simp only [depthOfPkg]
    refine depsFold_isSome (fun fp hfp d hd => ?_)
    have hdm := findPkg_mem hd
    have := hdec p hp fp hfp d hd
    exact ih d hdm (by omega)

theorem depthsOf_isSome_of_acyclic {pkgs : List Package}
    (hacyc : AcyclicBounded pkgs) :
    ∀ p ∈ pkgs, (depthsOf pkgs p).isSome = true := by
  rcases hacyc with ⟨rank, hbound, hdec⟩
  intro p hp
  exact depth_succeeds hdec pkgs.length p hp (hbound p hp)

theorem depth_dep_lt {pkgs : List Package} {p : Package} {fp : String}
    {q : Package} {v : Nat} (hp : depthsOf pkgs p = some v)
    (hfp : fp ∈ p.dependencies) (hq : findPkg pkgs fp = some q) :
    ∃ vq, depthsOf pkgs q = some vq ∧ vq < v := by
  unfold depthsOf at hp ⊢
  cases hn : pkgs.length with
  | zero => rw [hn] at hp; exact absurd hp (by simp [depthOfPkg])
  | succ m =>
    rw [hn] at hp
    simp only [depthOfPkg] at hp
    rcases depsFold_le hp fp hfp q hq with ⟨dd, hdd, hle⟩
    exact ⟨dd, depthOfPkg_mono (Nat.le_succ m) hdd, by omega⟩

theorem reaches_src_isSome {pkgs : List Package} {a b : String}
    (h : Reaches pkgs a b) : ∃ p, findPkg pkgs a = some p := by
  induction h with
  | base a d p hf hd => exact ⟨p, hf⟩
  | trans a b c hab hbc ih₁ ih₂ => exact ih₁

theorem reaches_depth_lt {pkgs : List Package} {a c : String}
    (h : Reaches pkgs a c) :
    ∀ {pa pc : Package} {va : Nat}, findPkg pkgs a = some pa →
      findPkg pkgs c = some pc → depthsOf pkgs pa = some va →
      ∃ vc, depthsOf pkgs pc = some vc ∧ vc < va := by
  induction h with
  | base a d p hf hd =>
    intro pa pc va hpa hpc hva
    have : p = pa := by rw [hf] at hpa; exact Option.some.inj hpa
    subst this
    exact depth_dep_lt hva hd hpc
  | trans a b c hab hbc ih₁ ih₂ =>
    intro pa pc va hpa hpc hva
    rcases reaches_src_isSome hbc with ⟨pb, hpb⟩
    rcases ih₁ hpa hpb hva with ⟨vb, hvb, hlt₁⟩
    rcases ih₂ hpb hpc hvb with ⟨vc, hvc, hlt₂⟩
    exact ⟨vc, hvc, by omega⟩

theorem cycle_depth_none {pkgs : List Package} {fp : String} {p : Package}
    (hcyc : Reaches pkgs fp fp) (hp : findPkg pkgs fp = some p) :
    depthsOf pkgs p = none := by
  cases h : depthsOf pkgs p with
  | none => rfl
  | some va =>
    rcases reaches_depth_lt hcyc hp hp h with ⟨vc, hvc, hlt⟩
    rw [h] at hvc
    have : va = vc := Option.some.inj hvc
    omega

/-! ## Lemmas about the bucket builder's output -/

theorem createDepBuckets_ok {pkgs : List Package}
    (h : ∀ p ∈ pkgs, (depthsOf pkgs p).isSome = true) :
    createDepBuckets pkgs = Except.ok
      (((pkgs.map (pkgKey pkgs)).insertionSort keyLEP).filterMap
        (fun k => findPkg pkgs k.2)) := by
  unfold createDepBuckets
  have hnil : pkgs.filter (fun p => (depthsOf pkgs p).isNone) = [] := by
    refine List.filter_eq_nil_iff.mpr (fun a ha => ?_)
    have hS := h a ha
    cases hx : depthsOf pkgs a with
    | none => rw [hx] at hS; simp at hS
    | some v => simp [hx]
  simp [hnil]

theorem createDepBuckets_cycle_error {pkgs : List Package} {p : Package}
    (hp : p ∈ pkgs) (hnone : depthsOf pkgs p = none) :
    ∃ names, createDepBuckets pkgs = Except.error (GraphError.cycle names) ∧
      p.name ∈ names ∧ names ≠ [] := by
  have hmem : p ∈ pkgs.filter (fun q => (depthsOf pkgs q).isNone) := by
    refine List.mem_filter.mpr ⟨hp, by simp [hnone]⟩
  have hne : ¬ (pkgs.filter (fun q => (depthsOf pkgs q).isNone)).isEmpty = true := by
    intro hx
    rw [List.isEmpty_iff] at hx
    rw [hx] at hmem
    exact absurd hmem (List.not_mem_nil p)
  refine ⟨(pkgs.filter (fun q => (depthsOf pkgs q).isNone)).map (fun q => q.name),
    ?_, List.mem_map.mpr ⟨p, hmem, rfl⟩, ?_⟩
  · unfold createDepBuckets
    simp [hne]
  · intro hx
    rw [List.map_eq_nil_iff] at hx
    rw [hx] at hmem
    exact absurd hmem (List.not_mem_nil p)

/-- Resolve a sort key back to its package. -/
def resolveKey (pkgs : List Package) (k : Nat × String) : Package :=
  (findPkg pkgs k.2).getD default

theorem filterMap_eq_map_getD {α β : Type} [Inhabited β] (f : α → Option β)
    (l : List α) (h : ∀ a ∈ l, (f a).isSome = true) :
    l.filterMap f = l.map (fun a => (f a).getD default) := by
  induction l with
  | nil => rfl
  | cons x xs ih =>
    have hx := h x (List.mem_cons_self x xs)
    cases hfx : f x with
    | none => rw [hfx] at hx; simp at hx
    | some b =>
      rw [List.filterMap_cons, hfx, List.map_cons, hfx]
      exact congrArg (List.cons _) (ih (fun a ha => h a (List.mem_cons_of_mem _ ha)))

theorem resolveKey_pkgKey {pkgs : List Package} (hfp : nodupFps pkgs)
    {p : Package} (hp : p ∈ pkgs) : resolveKey pkgs (pkgKey pkgs p) = p := by
  simp [resolveKey, pkgKey, findPkg_self hfp hp]

theorem mem_sortedKeys {pkgs : List Package} {k : Nat × String} :
    k ∈ (pkgs.map (pkgKey pkgs)).insertionSort keyLEP ↔
      ∃ p ∈ pkgs, pkgKey pkgs p = k := by
  rw [(List.perm_insertionSort keyLEP (pkgs.map (pkgKey pkgs))).mem_iff]
  simp

theorem createDepBuckets_ok_map {pkgs : List Package} (hfp : nodupFps pkgs)
    (h : ∀ p ∈ pkgs, (depthsOf pkgs p).isSome = true) :
    createDepBuckets pkgs = Except.ok
      (((pkgs.map (pkgKey pkgs)).insertionSort keyLEP).map (resolveKey pkgs)) := by
  rw [createDepBuckets_ok h]
  refine congrArg Except.ok ?_
  refine filterMap_eq_map_getD _ _ (fun k hk => ?_)
  rcases mem_sortedKeys.mp hk with ⟨p, hp, hkey⟩
  have : k.2 = p.fingerprint := by rw [← hkey]; rfl
  rw [this, findPkg_self hfp hp]
  rfl

theorem flat_perm {pkgs : List Package} (hfp : nodupFps pkgs) :
    (((pkgs.map (pkgKey pkgs)).insertionSort keyLEP).map (resolveKey pkgs)).Perm
      pkgs := by
  have h1 : ((pkgs.map (pkgKey pkgs)).insertionSort keyLEP).Perm
      (pkgs.map (pkgKey pkgs)) := List.perm_insertionSort _ _
  refine ((h1.map (resolveKey pkgs)).trans ?_)
  rw [List.map_map]
  have : ∀ p ∈ pkgs, (resolveKey pkgs ∘ pkgKey pkgs) p = id p := by
    intro p hp
    exact resolveKey_pkgKey hfp hp
  rw [List.map_congr_left this, List.map_id]

theorem flat_pairwise_depth {pkgs : List Package} (hfp : nodupFps pkgs) :
    (((pkgs.map (pkgKey pkgs)).insertionSort keyLEP).map (resolveKey pkgs)).Pairwise
      (fun a b => depthNat pkgs a ≤ depthNat pkgs b) := by
  refine List.pairwise_map.mpr ?_
  have hs : List.Sorted keyLEP ((pkgs.map (pkgKey pkgs)).insertionSort keyLEP) :=
    List.sorted_insertionSort keyLEP _
  refine List.Pairwise.imp_of_mem (fun {k₁ k₂} h1 h2 hle => ?_) hs
  rcases mem_sortedKeys.mp h1 with ⟨p₁, hp₁, hk₁⟩
  rcases mem_sortedKeys.mp h2 with ⟨p₂, hp₂, hk₂⟩
  have e₁ : resolveKey pkgs k₁ = p₁ := hk₁ ▸ resolveKey_pkgKey hfp hp₁
  have e₂ : resolveKey pkgs k₂ = p₂ := hk₂ ▸ resolveKey_pkgKey hfp hp₂
  have d₁ : depthNat pkgs p₁ = k₁.1 := by rw [← hk₁]; rfl
  have d₂ : depthNat pkgs p₂ = k₂.1 := by rw [← hk₂]; rfl
  rw [e₁, e₂, d₁, d₂]
  rcases hle with h | ⟨h, _⟩
  · exact Nat.le_of_lt h
  · exact Nat.le_of_eq h

theorem pairwise_indexOf_lt {α : Type} [DecidableEq α] {R : α → α → Prop}
    {l : List α} (hp : List.Pairwise R l) {a b : α} (ha : a ∈ l) (hb : b ∈ l)
    (hnr : ¬ R b a) (hne : a ≠ b) : l.indexOf a < l.indexOf b := by
  induction l with
  | nil => exact absurd ha (List.not_mem_nil a)
  | cons x xs ih =>
    rcases List.pairwise_cons.mp hp with ⟨hx, hxs⟩
    by_cases hax : a = x
    · subst hax
      have hbx : b ≠ a := fun h => hne h.symm
      rw [List.indexOf_cons_self, List.indexOf_cons_ne xs hne]
      exact Nat.succ_pos _
    · have hamem : a ∈ xs := by
        rcases List.mem_cons.mp ha with h | h
        · exact absurd h hax
        · exact h
      by_cases hbx : b = x
      · subst hbx
        exact absurd (hx a hamem) hnr
      · have hbmem : b ∈ xs := by
          rcases List.mem_cons.mp hb with h | h
          · exact absurd h hbx
          · exact h
        have hax' : x ≠ a := fun h => hax h.symm
        have hbx' : x ≠ b := fun h => hbx h.symm
        rw [List.indexOf_cons_ne xs hax', List.indexOf_cons_ne xs hbx']
        exact Nat.succ_lt_succ (ih hxs hamem hbmem)

/-! ## The depth value formula -/

/-- The depths of a package's resolved dependencies. -/
def depDepthList (pkgs : List Package) (p : Package) : List Nat :=
  p.dependencies.filterMap (fun fp => (findPkg pkgs fp).bind (depthsOf pkgs))

theorem depsFold_val {pkgs : List Package} {f : Package → Option Nat} :
    ∀ {l : List String} {m : Nat}, depsFold pkgs f l = some m →
      m = ((l.filterMap (fun fp => (findPkg pkgs fp).bind f)).map
        (fun dd => dd + 1)).foldr Nat.max 0 := by
  intro l
  induction l with
  | nil => intro m h; exact (Option.some.inj h).symm
  | cons fp rest ih =>
    intro m h
    rcases hr : depsFold pkgs f rest with _ | m'
    · rw [depsFold_cons, hr] at h; exact absurd h (by simp)
    · simp only [depsFold_cons, hr] at h
      rcases hd : findPkg pkgs fp with _ | d
      · simp only [hd] at h
        rw [List.filterMap_cons]
        simp only [hd, Option.none_bind]
        rw [← ih hr]
        exact Option.some.inj h |>.symm
      · simp only [hd] at h
        rcases hfd : f d with _ | dd
        · simp only [hfd] at h; exact absurd h (by simp)
        · simp only [hfd, Option.some.injEq] at h
          rw [List.filterMap_cons]
          simp only [hd, Option.some_bind, hfd, List.map_cons, List.foldr_cons]
          rw [← ih hr, ← h]
          exact (Nat.max_comm _ _)

theorem depthsOf_nil_deps {pkgs : List Package} {p : Package}
    (hp : p ∈ pkgs) (hdeps : p.dependencies = []) :
    depthsOf pkgs p = some 0 := by
  obtain ⟨m, hm⟩ : ∃ m, pkgs.length = m + 1 := by
    have := List.length_pos.mpr (List.ne_nil_of_mem hp)
    exact ⟨pkgs.length - 1, by omega⟩
  unfold depthsOf
  rw [hm]
  simp [depthOfPkg, hdeps, depsFold]

theorem filterMap_congr_own {α β : Type} {f g : α → Option β} :
    ∀ {l : List α}, (∀ a ∈ l, f a = g a) → l.filterMap f = l.filterMap g := by
  intro l
  induction l with
  | nil => intro _; rfl
  | cons x xs ih =>
    intro h
    rw [List.filterMap_cons, List.filterMap_cons,
      h x (List.mem_cons_self x xs),
      ih (fun a ha => h a (List.mem_cons_of_mem _ ha))]

theorem max_succ_succ (a b : Nat) : Nat.max (a + 1) (b + 1) = Nat.max a b + 1 :=
  Nat.succ_max_succ a b

theorem foldr_max_map_succ :
    ∀ {l : List Nat}, l ≠ [] →
      (l.map (fun x => x + 1)).foldr Nat.max 0 = l.foldr Nat.max 0 + 1 := by
  intro l
  induction l with
  | nil => intro h; exact absurd rfl h
  | cons x xs ih =>
    intro _
    cases xs with
    | nil => simp
    | cons y ys =>
      rw [List.map_cons, List.foldr_cons, List.foldr_cons, ih (by simp)]
      exact max_succ_succ x _

theorem depthsOf_formula {pkgs : List Package} {p : Package}
    (hacyc : AcyclicBounded pkgs) (hp : p ∈ pkgs) :
    depthsOf pkgs p =
      some (((depDepthList pkgs p).map (fun dd => dd + 1)).foldr Nat.max 0) := by
  rcases hacyc with ⟨rank, hbound, hdec⟩
  have hsome := depth_succeeds hdec pkgs.length p hp (hbound p hp)
  obtain ⟨m, hm⟩ : ∃ m, pkgs.length = m + 1 := by
    have := List.length_pos.mpr (List.ne_nil_of_mem hp)
    exact ⟨pkgs.length - 1, by omega⟩
  obtain ⟨v, hv⟩ := Option.isSome_iff_exists.mp hsome
  have hv' : depthOfPkg pkgs (m + 1) p = some v := by
    rw [← hm]; exact hv
  have hfold : depsFold pkgs (fun d => depthOfPkg pkgs m d) p.dependencies
      = some v := by
    simpa [depthOfPkg] using hv'
  have hval := depsFold_val hfold
  have hlists : p.dependencies.filterMap
      (fun fp => (findPkg pkgs fp).bind (fun d => depthOfPkg pkgs m d)) =
      depDepthList pkgs p := by
    unfold depDepthList
    refine filterMap_congr_own (fun fp hfp => ?_)
    cases hq : findPkg pkgs fp with
    | none => rfl
    | some q =>
      simp only [Option.some_bind]
      have hqmem := findPkg_mem hq
      have hq_rank := hdec p hp fp hfp q hq
      have hq_some := depth_succeeds hdec m q hqmem
        (by have := hbound p hp; omega)
      obtain ⟨w, hw⟩ := Option.isSome_iff_exists.mp hq_some
      rw [hw]
      unfold depthsOf
      rw [hm]
      exact (depthOfPkg_mono (Nat.le_succ m) hw).symm
  rw [hlists] at hval
  unfold depthsOf
  rw [hm, ← hval]
  simpa [depthOfPkg] using hv'

theorem depthsOf_cons_deps {pkgs : List Package} {p : Package}
    (hacyc : AcyclicBounded pkgs) (hclosed : ClosedDeps pkgs)
    (hp : p ∈ pkgs) (hdeps : p.dependencies ≠ []) :
    depthsOf pkgs p = some ((depDepthList pkgs p).foldr Nat.max 0 + 1) := by
  have hform := depthsOf_formula hacyc hp
  have hne : depDepthList pkgs p ≠ [] := by
    obtain ⟨fp₀, hfp₀⟩ := List.exists_mem_of_ne_nil _ hdeps
    have hres := hclosed p hp fp₀ hfp₀
    obtain ⟨q, hq⟩ := Option.isSome_iff_exists.mp hres
    have hqs := depthsOf_isSome_of_acyclic hacyc q (findPkg_mem hq)
    obtain ⟨w, hw⟩ := Option.isSome_iff_exists.mp hqs
    have : w ∈ depDepthList pkgs p :=
      List.mem_filterMap.mpr ⟨fp₀, hfp₀, by simp [hq, hw]⟩
    exact List.ne_nil_of_mem this
  rw [hform, foldr_max_map_succ hne]

/-! ## Permutation invariance (determinism of the bucket builder) -/

theorem depsFold_ext {pkgs₁ pkgs₂ : List Package} {f g : Package → Option Nat}
    (hfind : ∀ fp, findPkg pkgs₁ fp = findPkg pkgs₂ fp)
    (hfg : ∀ d, f d = g d) :
    ∀ l, depsFold pkgs₁ f l = depsFold pkgs₂ g l := by
  intro l
  induction l with
  | nil => rfl
  | cons fp rest ih =>
    rw [depsFold_cons, depsFold_cons, ih, hfind fp]
    cases depsFold pkgs₂ g rest with
    | none => rfl
    | some m =>
      cases findPkg pkgs₂ fp with
      | none => rfl
      | some d => simp [hfg d]

theorem depthOfPkg_ext {pkgs₁ pkgs₂ : List Package}
    (hfind : ∀ fp, findPkg pkgs₁ fp = findPkg pkgs₂ fp) :
    ∀ fuel p, depthOfPkg pkgs₁ fuel p = depthOfPkg pkgs₂ fuel p := by
  intro fuel
  induction fuel with
  | zero => intro p; rfl
  | succ e ih =>
    intro p
    simp only [depthOfPkg]
    exact depsFold_ext hfind (fun d => ih d) p.dependencies

theorem depthsOf_perm {pkgs₁ pkgs₂ : List Package} (hperm : pkgs₁.Perm pkgs₂)
    (hfp : nodupFps pkgs₁) (p : Package) :
    depthsOf pkgs₁ p = depthsOf pkgs₂ p := by
  unfold depthsOf
  rw [hperm.length_eq]
  exact depthOfPkg_ext (findPkg_perm hperm hfp) pkgs₂.length p

theorem depthNat_perm {pkgs₁ pkgs₂ : List Package} (hperm : pkgs₁.Perm pkgs₂)
    (hfp : nodupFps pkgs₁) (p : Package) :
    depthNat pkgs₁ p = depthNat pkgs₂ p := by
  unfold depthNat
  rw [depthsOf_perm hperm hfp p]

theorem pkgKey_perm {pkgs₁ pkgs₂ : List Package} (hperm : pkgs₁.Perm pkgs₂)
    (hfp : nodupFps pkgs₁) (p : Package) :
    pkgKey pkgs₁ p = pkgKey pkgs₂ p := by
  unfold pkgKey
  rw [depthNat_perm hperm hfp p]

theorem createDepBuckets_perm_ok {pkgs₁ pkgs₂ : List Package}
    (hperm : pkgs₁.Perm pkgs₂) (hfp : nodupFps pkgs₁)
    (hall : ∀ p ∈ pkgs₁, (depthsOf pkgs₁ p).isSome = true) :
    ∀ {out : List Package}, createDepBuckets pkgs₁ = Except.ok out →
      createDepBuckets pkgs₂ = Except.ok out := by
  intro out h
  have hall₂ : ∀ p ∈ pkgs₂, (depthsOf pkgs₂ p).isSome = true := by
    intro p hp
    rw [← depthsOf_perm hperm hfp p]
    exact hall p (hperm.mem_iff.mpr hp)
  rw [createDepBuckets_ok hall] at h
  rw [createDepBuckets_ok hall₂]
  have hkeys : (pkgs₂.map (pkgKey pkgs₂)) = pkgs₂.map (pkgKey pkgs₁) :=
    List.map_congr_left (fun p _ => (pkgKey_perm hperm hfp p).symm)
  have hkperm : (pkgs₁.map (pkgKey pkgs₁)).Perm (pkgs₂.map (pkgKey pkgs₂)) := by
    rw [hkeys]
    exact hperm.map _
  have hsorted_eq : (pkgs₁.map (pkgKey pkgs₁)).insertionSort keyLEP =
      (pkgs₂.map (pkgKey pkgs₂)).insertionSort keyLEP := by
    refine List.eq_of_perm_of_sorted ?_ (List.sorted_insertionSort keyLEP _)
      (List.sorted_insertionSort keyLEP _)
    exact ((List.perm_insertionSort keyLEP _).trans hkperm).trans
      (List.perm_insertionSort keyLEP _).symm
  rw [← hsorted_eq]
  rw [← h]
  refine congrArg Except.ok ?_
  exact filterMap_congr_own (fun k _ => (findPkg_perm hperm hfp k.2).symm)

/-! ## Lemmas about fingerprint deduplication -/

theorem dedupByFpAux_mem : ∀ {seen : List String} {l : List Package}
    {q : Package}, q ∈ dedupByFpAux seen l →
      q ∈ l ∧ q.fingerprint ∉ seen := by
  intro seen l
  induction l generalizing seen with
  | nil => intro q hq; exact absurd hq (List.not_mem_nil q)
  | cons p rest ih =>
    intro q hq
    by_cases hc : p.fingerprint ∈ seen
    · rw [dedupByFpAux, if_pos hc] at hq
      rcases ih hq with ⟨h1, h2⟩
      exact ⟨List.mem_cons_of_mem _ h1, h2⟩
    · rw [dedupByFpAux, if_neg hc] at hq
      rcases List.mem_cons.mp hq with heq | hmem
      · subst heq
        exact ⟨List.mem_cons_self q rest, hc⟩
      · rcases ih hmem with ⟨h1, h2⟩
        refine ⟨List.mem_cons_of_mem _ h1, fun hx => h2 ?_⟩
        exact List.mem_cons_of_mem _ hx

theorem dedupByFpAux_nodup : ∀ (seen : List String) (l : List Package),
    ((dedupByFpAux seen l).map (fun p => p.fingerprint)).Nodup := by
  intro seen l
  induction l generalizing seen with
  | nil => exact List.nodup_nil
  | cons p rest ih =>
    by_cases hc : p.fingerprint ∈ seen
    · rw [dedupByFpAux, if_pos hc]
      exact ih seen
    · rw [dedupByFpAux, if_neg hc, List.map_cons]
      refine List.nodup_cons.mpr ⟨?_, ih _⟩
      intro hx
      rcases List.mem_map.mp hx with ⟨q, hq, hfq⟩
      rcases dedupByFpAux_mem hq with ⟨_, hns⟩
      exact hns (hfq ▸ List.mem_cons_self _ _)

theorem dedupByFpAux_find : ∀ {seen : List String} {l : List Package}
    {q : Package}, q ∈ dedupByFpAux seen l →
      l.find? (fun r => r.fingerprint == q.fingerprint) = some q := by
  intro seen l
  induction l generalizing seen with
  | nil => intro q hq; exact absurd hq (List.not_mem_nil q)
  | cons p rest ih =>
    intro q hq
    by_cases hc : p.fingerprint ∈ seen
    · rw [dedupByFpAux, if_pos hc] at hq
      rcases dedupByFpAux_mem hq with ⟨_, hns⟩
      have hne : (p.fingerprint == q.fingerprint) = false := by
        simp only [beq_eq_false_iff_ne, ne_eq]
        intro hx
        exact hns (hx ▸ hc)
      rw [List.find?_cons, hne]
      exact ih hq
    · rw [dedupByFpAux, if_neg hc] at hq
      rcases List.mem_cons.mp hq with heq | hmem
      · subst heq
        rw [List.find?_cons]
        simp
      · rcases dedupByFpAux_mem hmem with ⟨_, hns⟩
        have hne : (p.fingerprint == q.fingerprint) = false := by
          simp only [beq_eq_false_iff_ne, ne_eq]
          intro hx
          exact hns (hx ▸ List.mem_cons_self _ _)
        rw [List.find?_cons, hne]
        exact ih hmem

theorem dedupByFpAux_covers : ∀ {seen : List String} {l : List Package}
    {fp : String}, fp ∉ seen → (∃ p ∈ l, p.fingerprint = fp) →
      ∃ p ∈ dedupByFpAux seen l, p.fingerprint = fp := by
  intro seen l
  induction l generalizing seen with
  | nil =>
    intro fp _ h
    rcases h with ⟨p, hp, _⟩
    exact absurd hp (List.not_mem_nil p)
  | cons p rest ih =>
    intro fp hfp h
    rcases h with ⟨w, hw, hwfp⟩
    by_cases hc : p.fingerprint ∈ seen
    · rw [dedupByFpAux, if_pos hc]
      rcases List.mem_cons.mp hw with heq | hmem
      · subst heq
        exact absurd (hwfp ▸ hc) hfp
      · exact ih hfp ⟨w, hmem, hwfp⟩
    · rw [dedupByFpAux, if_neg hc]
      by_cases hpf : p.fingerprint = fp
      · exact ⟨p, List.mem_cons_self p _, hpf⟩
      · rcases List.mem_cons.mp hw with heq | hmem
        · subst heq
          exact absurd hwfp hpf
        · have hfp' : fp ∉ p.fingerprint :: seen := by
            intro hx
            rcases List.mem_cons.mp hx with h1 | h2
            · exact hpf h1.symm
            · exact hfp h2
          rcases ih hfp' ⟨w, hmem, hwfp⟩ with ⟨q, hq, hqf⟩
          exact ⟨q, List.mem_cons_of_mem _ hq, hqf⟩

theorem gatherPackages_nodupFps (releases : List Release)
    (manifest : Option RoleManifest) :
    nodupFps (gatherPackages releases manifest) := by
  cases manifest with
  | none => exact dedupByFpAux_nodup [] _
  | some m => exact dedupByFpAux_nodup [] _

/-! ## Lemmas about the transitive closure -/

theorem mem_depsOfFp {pkgs : List Package} {fp d : String}
    (h : d ∈ depsOfFp pkgs fp) :
    ∃ p, findPkg pkgs fp = some p ∧ d ∈ p.dependencies := by
  unfold depsOfFp at h
  cases hf : findPkg pkgs fp with
  | none => rw [hf] at h; exact absurd h (List.not_mem_nil d)
  | some p =>
    rw [hf] at h
    exact ⟨p, rfl, h⟩

theorem depsOfFp_of_findPkg {pkgs : List Package} {fp : String} {p : Package}
    (h : findPkg pkgs fp = some p) : depsOfFp pkgs fp = p.dependencies := by
  unfold depsOfFp
  rw [h]
  rfl

theorem subset_expandOnce (pkgs : List Package) (acc : List String) :
    acc ⊆ expandOnce pkgs acc :=
  fun a ha => List.mem_append_left _ ha

theorem subset_iterEx (pkgs : List Package) :
    ∀ (n : Nat) (acc : List String), acc ⊆ iterEx pkgs n acc := by
  intro n
  induction n with
  | zero => intro acc; exact fun a ha => ha
  | succ m ih =>
    intro acc
    exact fun a ha => ih (expandOnce pkgs acc) (subset_expandOnce pkgs acc ha)

theorem expandOnce_nodup {pkgs : List Package} {acc : List String}
    (h : acc.Nodup) : (expandOnce pkgs acc).Nodup := by
  unfold expandOnce
  refine List.Nodup.append h (List.nodup_dedup _) ?_
  intro a ha hb
  rcases List.mem_dedup.mp hb with hb'
  have := List.of_mem_filter hb'
  simp only [decide_eq_true_eq] at this
  exact this ha

theorem expandOnce_fix {pkgs : List Package} {acc : List String}
    (h : expandOnce pkgs acc = acc) :
    ∀ n, iterEx pkgs n acc = acc := by
  intro n
  induction n with
  | zero => rfl
  | succ m ih => rw [iterEx, h, ih]

theorem expandOnce_grow {pkgs : List Package} {acc : List String}
    (h : expandOnce pkgs acc ≠ acc) :
    acc.length + 1 ≤ (expandOnce pkgs acc).length := by
  unfold expandOnce at h ⊢
  rcases hb : ((acc.flatMap (depsOfFp pkgs)).filter
      (fun d => ¬ d ∈ acc)).dedup with _ | ⟨x, xs⟩
  · rw [hb] at h
    exact absurd (List.append_nil acc) h
  · simp only [List.length_append, List.length_cons]
    omega

theorem nodup_subset_length {α : Type} [DecidableEq α] {l l' : List α}
    (hnd : l.Nodup) (hsub : l ⊆ l') : l.length ≤ l'.length := by
  calc l.length = l.toFinset.card := (List.toFinset_card_of_nodup hnd).symm
    _ ≤ l'.toFinset.card := Finset.card_le_card (fun a ha =>
        List.mem_toFinset.mpr (hsub (List.mem_toFinset.mp ha)))
    _ ≤ l'.length := List.toFinset_card_le l'

/-- Every fingerprint the expansion can ever add comes from the seed or
from some package's dependency list. -/
def closureBound (pkgs : List Package) (seed : List String) : List String :=
  seed ++ pkgs.flatMap (fun p => p.dependencies)

theorem expandOnce_bound {pkgs : List Package} {seed acc : List String}
    (h : acc ⊆ closureBound pkgs seed) :
    expandOnce pkgs acc ⊆ closureBound pkgs seed := by
  intro a ha
  rcases List.mem_append.mp ha with ha' | ha'
  · exact h ha'
  · have ha2 := List.mem_dedup.mp ha'
    have ha3 := List.mem_of_mem_filter ha2
    rcases List.mem_flatMap.mp ha3 with ⟨fp, _, hd⟩
    rcases mem_depsOfFp hd with ⟨p, hp, hdep⟩
    exact List.mem_append_right _
      (List.mem_flatMap.mpr ⟨p, findPkg_mem hp, hdep⟩)

theorem iterEx_saturates {pkgs : List Package} (seed : List String) :
    ∀ (n : Nat) (acc : List String), acc.Nodup →
      acc ⊆ closureBound pkgs seed →
      (closureBound pkgs seed).length + 1 ≤ n + acc.length →
      expandOnce pkgs (iterEx pkgs n acc) = iterEx pkgs n acc := by
  intro n
  induction n with
  | zero =>
    intro acc hnd hsub hlen
    have := nodup_subset_length hnd hsub
    omega
  | succ m ih =>
    intro acc hnd hsub hlen
    by_cases hfix : expandOnce pkgs acc = acc
    · rw [iterEx, hfix, expandOnce_fix hfix m, hfix]
    · rw [iterEx]
      refine ih (expandOnce pkgs acc) (expandOnce_nodup hnd)
        (expandOnce_bound hsub) ?_
      have := expandOnce_grow hfix
      omega

theorem closureList_saturated (pkgs : List Package) (seed : List String) :
    expandOnce pkgs (closureList pkgs seed) = closureList pkgs seed := by
  unfold closureList
  refine iterEx_saturates seed _ seed.dedup (List.nodup_dedup seed) ?_ ?_
  · intro a ha
    exact List.mem_append_left _ (List.mem_dedup.mp ha)
  · unfold closureBound
    omega

theorem seed_subset_closureList (pkgs : List Package) (seed : List String) :
    seed ⊆ closureList pkgs seed := by
  intro a ha
  exact subset_iterEx pkgs _ seed.dedup (List.mem_dedup.mpr ha)

theorem closureList_closed {pkgs : List Package} {seed : List String}
    {fp d : String}
    {p : Package} (hmem : fp ∈ closureList pkgs seed)
    (hp : findPkg pkgs fp = some p) (hd : d ∈ p.dependencies) :
    d ∈ closureList pkgs seed := by
  by_cases hin : d ∈ closureList pkgs seed
  · exact hin
  · rw [← closureList_saturated pkgs seed]
    refine List.mem_append_right _ ?_
    refine List.mem_dedup.mpr ?_
    refine List.mem_filter.mpr ⟨?_, by simpa using hin⟩
    refine List.mem_flatMap.mpr ⟨fp, hmem, ?_⟩
    rw [depsOfFp_of_findPkg hp]
    exact hd

theorem reaches_mem_closureList {pkgs : List Package} {seed : List String}
    {a b : String} (h : Reaches pkgs a b) (ha : a ∈ closureList pkgs seed) :
    b ∈ closureList pkgs seed := by
  induction h with
  | base a d p hf hd => exact closureList_closed ha hf hd
  | trans a b c hab hbc ih₁ ih₂ => exact ih₂ (ih₁ ha)

theorem iterEx_sound {pkgs : List Package} {seed : List String} :
    ∀ (n : Nat) (acc : List String),
      (∀ fp ∈ acc, fp ∈ seed ∨ ∃ s ∈ seed, Reaches pkgs s fp) →
      ∀ fp ∈ iterEx pkgs n acc,
        fp ∈ seed ∨ ∃ s ∈ seed, Reaches pkgs s fp := by
  intro n
  induction n with
  | zero => intro acc hacc fp hfp; exact hacc fp hfp
  | succ m ih =>
    intro acc hacc fp hfp
    refine ih (expandOnce pkgs acc) ?_ fp hfp
    intro d hd
    rcases List.mem_append.mp hd with hd' | hd'
    · exact hacc d hd'
    · have hd2 := List.mem_of_mem_filter (List.mem_dedup.mp hd')
      rcases List.mem_flatMap.mp hd2 with ⟨fp₀, hfp₀, hdep⟩
      rcases mem_depsOfFp hdep with ⟨p, hp, hpd⟩
      have hstep : Reaches pkgs fp₀ d := Reaches.base fp₀ d p hp hpd
      rcases hacc fp₀ hfp₀ with hs | ⟨s, hs, hr⟩
      · exact Or.inr ⟨fp₀, hs, hstep⟩
      · exact Or.inr ⟨s, hs, Reaches.trans s fp₀ d hr hstep⟩

theorem closureList_sound {pkgs : List Package} {seed : List String}
    {fp : String} (h : fp ∈ closureList pkgs seed) :
    fp ∈ seed ∨ ∃ s ∈ seed, Reaches pkgs s fp := by
  refine iterEx_sound _ seed.dedup (fun d hd => Or.inl (List.mem_dedup.mp hd))
    fp h

/-! ## Scheduler invariant -/

theorem drop_eq_cons_getD {α : Type} {l : List α} {k : Nat} {x : α}
    {xs : List α} (h : l.drop k = x :: xs) (d : α) : l.getD k d = x := by
  have h0 : (l.drop k)[0]? = some x := by rw [h]; simp
  rw [List.getElem?_drop] at h0
  rw [List.getD_eq_getElem?_getD]
  simp only [Nat.add_zero] at h0
  rw [h0]
  rfl

theorem drop_eq_cons_succ {α : Type} {l : List α} {k : Nat} {x : α}
    {xs : List α} (h : l.drop k = x :: xs) : l.drop (k + 1) = xs := by
  have h2 := List.drop_drop 1 k l
  rw [h] at h2
  simpa using h2.symm

theorem drop_eq_cons_lt {α : Type} {l : List α} {k : Nat} {x : α}
    {xs : List α} (h : l.drop k = x :: xs) : k < l.length := by
  by_contra hk
  rw [List.drop_eq_nil_of_le (by omega)] at h
  exact absurd h (by simp)

theorem append_singleton_cases {α : Type} {tr t₁ t₂ : List α} {x e : α}
    (h : tr ++ [e] = t₁ ++ x :: t₂) :
    (t₂ = [] ∧ x = e ∧ t₁ = tr) ∨
      ∃ t₂', t₂ = t₂' ++ [e] ∧ tr = t₁ ++ x :: t₂' := by
  rcases List.eq_nil_or_concat t₂ with hnil | ⟨t₂', b, hcat⟩
  · subst hnil
    rcases List.append_inj' h (by rfl) with ⟨h1, h2⟩
    exact Or.inl ⟨rfl, (List.cons.inj h2).1.symm, h1.symm⟩
  · subst hcat
    rw [List.concat_eq_append] at h
    have h' : tr ++ [e] = (t₁ ++ x :: t₂') ++ [b] := by
      rw [h]
      simp
    rcases List.append_inj' h' (by rfl) with ⟨h1, h2⟩
    have hb : e = b := (List.cons.inj h2).1
    exact Or.inr ⟨t₂', by rw [hb, List.concat_eq_append], h1⟩

/-- The well-formedness of the level sequence the scheduler is driven by:
no fingerprint occurs twice over all levels, and the target of a
dependency edge always sits in a strictly earlier level than its source. -/
def GoodLevels (levels : List (List String))
    (dep : String → String → Prop) : Prop :=
  levels.flatten.Nodup ∧
  ∀ i fp d, fp ∈ levels.getD i [] → dep fp d →
    ∃ j, j < i ∧ d ∈ levels.getD j []

/-- The inductive invariant of the scheduler: some prefix of `k` levels
has been taken up, the pending and running fingerprints all belong to the
level currently being processed, every strictly earlier level has fully
drained into the trace, and every start event in the trace is preceded by
finish events for all its dependencies. -/
def SchedInv (levels : List (List String)) (dep : String → String → Prop)
    (s : SchedSt) : Prop :=
  (∃ k, k ≤ levels.length ∧ s.rest = levels.drop k ∧
    (k = 0 → s.current = [] ∧ s.running = []) ∧
    (∀ fp, fp ∈ s.current ∨ fp ∈ s.running →
      0 < k ∧ fp ∈ levels.getD (k - 1) []) ∧
    (∀ i, i + 1 < k → ∀ fp ∈ levels.getD i [], Ev.finish fp ∈ s.trace) ∧
    (0 < k → ∀ fp ∈ levels.getD (k - 1) [],
      fp ∈ s.current ∨ fp ∈ s.running ∨ Ev.finish fp ∈ s.trace)) ∧
  (s.current ++ (s.running ++ s.rest.flatten)).Nodup ∧
  (∀ a t₁ t₂, s.trace = t₁ ++ Ev.start a :: t₂ →
    ∀ d, dep a d → Ev.finish d ∈ t₁)

theorem sched_inv_init {levels : List (List String)}
    {dep : String → String → Prop} (hG : GoodLevels levels dep) :
    SchedInv levels dep ⟨[], [], levels, []⟩ := by
  refine ⟨⟨0, Nat.zero_le _, by simp, fun _ => ⟨rfl, rfl⟩, ?_, ?_, ?_⟩, ?_, ?_⟩
  · intro fp hfp
    rcases hfp with h | h <;> exact absurd h (List.not_mem_nil fp)
  · intro i hi
    omega
  · intro h
    omega
  · simpa using hG.1
  · intro a t₁ t₂ hdec
    exact absurd hdec.symm (by simp)

theorem sched_inv_step {W : Nat} {levels : List (List String)}
    {dep : String → String → Prop} (hG : GoodLevels levels dep)
    {s s' : SchedSt} (hstep : SchedStep W s s')
    (hinv : SchedInv levels dep s) : SchedInv levels dep s' := by
  rcases hinv with ⟨⟨k, hk, hrest, hzero, hmemb, hdrain, hlast⟩, hnd, htr⟩
  cases hstep with
  | advance l ls tr =>
    simp only at hrest hnd hmemb hlast hzero htr ⊢
    have hlk : levels.getD k [] = l := drop_eq_cons_getD hrest.symm []
    have hklen : k < levels.length := drop_eq_cons_lt hrest.symm
    have hrest' : levels.drop (k + 1) = ls := drop_eq_cons_succ hrest.symm
    refine ⟨⟨k + 1, by omega, hrest'.symm, fun hx => absurd hx (by omega),
      ?_, ?_, ?_⟩, ?_, htr⟩
    · intro fp hfp
      rcases hfp with h | h
      · exact ⟨by omega, show fp ∈ levels.getD k [] from hlk.symm ▸ h⟩
      · exact absurd h (List.not_mem_nil fp)
    · intro i hi fp hfp
      by_cases hik : i + 1 < k
      · exact hdrain i hik fp hfp
      · have hik' : i = k - 1 ∧ 0 < k := by omega
        rcases hlast hik'.2 fp (hik'.1 ▸ hfp) with h | h | h
        · exact absurd h (List.not_mem_nil fp)
        · exact absurd h (List.not_mem_nil fp)
        · exact h
    · intro _ fp hfp
      exact Or.inl (hlk ▸ (show fp ∈ levels.getD k [] from hfp))
    · simpa using hnd
  | startB fp cur run rest tr hm hw =>
    simp only at hrest hnd hmemb hlast hzero htr ⊢
    have hkpos : 0 < k := (hmemb fp (Or.inl hm)).1
    refine ⟨⟨k, hk, hrest, fun h0 => absurd hkpos (by omega), ?_, ?_, ?_⟩, ?_, ?_⟩
    · intro fp' hfp'
      rcases hfp' with h | h
      · exact hmemb fp' (Or.inl (List.mem_of_mem_erase h))
      · rcases List.mem_cons.mp h with heq | hmem
        · exact heq ▸ hmemb fp (Or.inl hm)
        · exact hmemb fp' (Or.inr hmem)
    · intro i hi fp' hfp'
      exact List.mem_append_left _ (hdrain i hi fp' hfp')
    · intro hpos fp' hfp'
      rcases hlast hpos fp' hfp' with h | h | h
      · by_cases hfe : fp' = fp
        · exact Or.inr (Or.inl (hfe ▸ List.mem_cons_self fp run))
        · exact Or.inl ((List.mem_erase_of_ne hfe).mpr h)
      · exact Or.inr (Or.inl (List.mem_cons_of_mem _ h))
      · exact Or.inr (Or.inr (List.mem_append_left _ h))
    · have hperm : (cur.erase fp ++ (fp :: run ++ rest.flatten)).Perm
          (cur ++ (run ++ rest.flatten)) := by
        have p1 : cur.erase fp ++ (fp :: (run ++ rest.flatten)) |>.Perm
            (fp :: (cur.erase fp ++ (run ++ rest.flatten))) := List.perm_middle
        have p2 : cur.Perm (fp :: cur.erase fp) := List.perm_cons_erase hm
        have p3 : (cur ++ (run ++ rest.flatten)).Perm
            ((fp :: cur.erase fp) ++ (run ++ rest.flatten)) :=
          p2.append_right _
        refine p1.trans ?_
        refine (p3.trans ?_).symm
        simp
      exact (List.Perm.nodup_iff hperm).mpr hnd
    · intro a t₁ t₂ hdec d hdepd
      have hdec' : tr ++ [Ev.start fp] = t₁ ++ Ev.start a :: t₂ := hdec
      rcases append_singleton_cases hdec' with ⟨h2, hxe, h1⟩ | ⟨t₂', h2, h1⟩
      · have ha : a = fp := by
          cases hxe
          rfl
        subst ha
        subst h1
        have hmem := hmemb a (Or.inl hm)
        rcases hG.2 (k - 1) a d hmem.2 hdepd with ⟨j, hj, hdj⟩
        exact hdrain j (by omega) d hdj
      · exact htr a t₁ t₂' h1 d hdepd
  | finishB fp cur run rest tr hm =>
    simp only at hrest hnd hmemb hlast hzero htr ⊢
    have hkpos : 0 < k := (hmemb fp (Or.inr hm)).1
    refine ⟨⟨k, hk, hrest, fun h0 => absurd hkpos (by omega), ?_, ?_, ?_⟩, ?_, ?_⟩
    · intro fp' hfp'
      rcases hfp' with h | h
      · exact hmemb fp' (Or.inl h)
      · exact hmemb fp' (Or.inr (List.mem_of_mem_erase h))
    · intro i hi fp' hfp'
      exact List.mem_append_left _ (hdrain i hi fp' hfp')
    · intro hpos fp' hfp'
      rcases hlast hpos fp' hfp' with h | h | h
      · exact Or.inl h
      · by_cases hfe : fp' = fp
        · subst hfe
          exact Or.inr (Or.inr (List.mem_append_right _ (by simp)))
        · exact Or.inr (Or.inl ((List.mem_erase_of_ne hfe).mpr h))
      · exact Or.inr (Or.inr (List.mem_append_left _ h))
    · have hsub : List.Sublist (cur ++ (run.erase fp ++ rest.flatten))
          (cur ++ (run ++ rest.flatten)) := by
        refine List.Sublist.append_left ?_ cur
        exact (List.erase_sublist fp run).append_right rest.flatten
      exact hnd.sublist hsub
    · intro a t₁ t₂ hdec d hdepd
      have hdec' : tr ++ [Ev.finish fp] = t₁ ++ Ev.start a :: t₂ := hdec
      rcases append_singleton_cases hdec' with ⟨h2, hxe, h1⟩ | ⟨t₂', h2, h1⟩
      · exact absurd hxe (by simp)
      · exact htr a t₁ t₂' h1 d hdepd

theorem sched_inv_reached {W : Nat} {levels : List (List String)}
    {dep : String → String → Prop} (hG : GoodLevels levels dep)
    {s : SchedSt} (hs : Reached W levels s) : SchedInv levels dep s := by
  unfold Reached at hs
  induction hs with
  | refl => exact sched_inv_init hG
  | tail hsteps hstep ih => exact sched_inv_step hG hstep ih

theorem reached_running_nodup {W : Nat} {levels : List (List String)}
    {dep : String → String → Prop} (hG : GoodLevels levels dep)
    {s : SchedSt} (hs : Reached W levels s) : s.running.Nodup := by
  rcases sched_inv_reached hG hs with ⟨_, hnd, _⟩
  exact ((hnd.of_append_right).of_append_left)

theorem reached_trace_order {W : Nat} {levels : List (List String)}
    {dep : String → String → Prop} (hG : GoodLevels levels dep)
    {s : SchedSt} (hs : Reached W levels s) :
    ∀ a t₁ t₂, s.trace = t₁ ++ Ev.start a :: t₂ →
      ∀ d, dep a d → Ev.finish d ∈ t₁ := by
  rcases sched_inv_reached hG hs with ⟨_, _, htr⟩
  exact htr

/-! ## Partitioning a list by a numeric key -/

theorem flatten_map_nil {α : Type} :
    ∀ (ds : List Nat), ((ds.map (fun _ => ([] : List α))).flatten) = [] := by
  intro ds
  induction ds with
  | nil => rfl
  | cons d ds' ih => simpa using ih

theorem flatten_filters_cons {α : Type} [DecidableEq α] (key : α → Nat)
    (x : α) (xs : List α) :
    ∀ (ds : List Nat), ds.Nodup → key x ∈ ds →
      (((ds.map (fun dd => (x :: xs).filter (fun a => key a == dd))).flatten).Perm
        (x :: (ds.map (fun dd => xs.filter (fun a => key a == dd))).flatten)) := by
  intro ds
  induction ds with
  | nil => intro _ hmem; exact absurd hmem (List.not_mem_nil _)
  | cons d ds' ih =>
    intro hnd hmem
    rcases List.nodup_cons.mp hnd with ⟨hdnotin, hnd'⟩
    by_cases hdx : key x = d
    · have hfilter : (x :: xs).filter (fun a => key a == d) =
          x :: xs.filter (fun a => key a == d) := by
        rw [List.filter_cons, if_pos (by simp [hdx])]
      have hrest : ds'.map (fun dd => (x :: xs).filter (fun a => key a == dd)) =
          ds'.map (fun dd => xs.filter (fun a => key a == dd)) := by
        refine List.map_congr_left (fun dd hdd => ?_)
        rw [List.filter_cons, if_neg]
        simp only [beq_iff_eq]
        intro hx
        refine hdnotin ?_
        rw [← hdx, hx]
        exact hdd
      rw [List.map_cons, hfilter, List.flatten_cons, hrest, List.map_cons,
        List.flatten_cons, List.cons_append]
    · have hmem' : key x ∈ ds' := by
        rcases List.mem_cons.mp hmem with h | h
        · exact absurd h hdx
        · exact h
      have hfilter : (x :: xs).filter (fun a => key a == d) =
          xs.filter (fun a => key a == d) := by
        rw [List.filter_cons, if_neg (by simp [hdx])]
      rw [List.map_cons, hfilter, List.flatten_cons, List.map_cons,
        List.flatten_cons]
      refine ((ih hnd' hmem').append_left _).trans ?_
      exact List.perm_middle

theorem flatten_partition {α : Type} [DecidableEq α] (key : α → Nat) :
    ∀ (l : List α) (n : Nat), (∀ a ∈ l, key a < n) →
      ((((List.range n).map (fun dd => l.filter (fun a => key a == dd))).flatten).Perm
        l) := by
  intro l
  induction l with
  | nil =>
    intro n _
    have : (List.range n).map (fun dd => ([] : List α).filter
        (fun a => key a == dd)) = (List.range n).map (fun _ => ([] : List α)) := by
      refine List.map_congr_left (fun dd _ => rfl)
    rw [this, flatten_map_nil]
  | cons x xs ih =>
    intro n h
    have hx : key x ∈ List.range n :=
      List.mem_range.mpr (h x (List.mem_cons_self x xs))
    refine (flatten_filters_cons key x xs (List.range n)
      (List.nodup_range n) hx).trans ?_
    exact (ih n (fun a ha => h a (List.mem_cons_of_mem _ ha))).cons x

/-! ## The pipeline's levels are good for the scheduler -/

/-- `d` is a transitive dependency of `a`, and `d` resolves in the set. -/
def depRel (pkgs : List Package) (a d : String) : Prop :=
  Reaches pkgs a d ∧ ∃ q, findPkg pkgs d = some q

/-- The flat build order produced by the bucket builder in the success
case. -/
def bucketFlat (pkgs : List Package) : List Package :=
  ((pkgs.map (pkgKey pkgs)).insertionSort keyLEP).map (resolveKey pkgs)

/-- The largest depth occurring in the build order. -/
def maxDepth (pkgs : List Package) : Nat :=
  ((bucketFlat pkgs).map (depthNat pkgs)).foldr Nat.max 0

/-- The levels view of the build order. -/
def levelList (pkgs : List Package) : List (List Package) :=
  (List.range (maxDepth pkgs + 1)).map
    (fun d => (bucketFlat pkgs).filter (fun p => depthNat pkgs p == d))

/-- The levels with packages projected to fingerprints. -/
def levelFps (pkgs : List Package) : List (List String) :=
  (levelList pkgs).map (fun l => l.map (fun p => p.fingerprint))

theorem createDepBuckets_eq_flat {pkgs : List Package} (hfp : nodupFps pkgs)
    (hacyc : AcyclicBounded pkgs) :
    createDepBuckets pkgs = Except.ok (bucketFlat pkgs) :=
  createDepBuckets_ok_map hfp (depthsOf_isSome_of_acyclic hacyc)

theorem createDepLevels_eq {pkgs : List Package} (hfp : nodupFps pkgs)
    (hacyc : AcyclicBounded pkgs) :
    createDepLevels pkgs = Except.ok (levelList pkgs) := by
  unfold createDepLevels
  rw [createDepBuckets_eq_flat hfp hacyc]
  rfl

theorem pkgLevelsFps_eq {pkgs : List Package} (hfp : nodupFps pkgs)
    (hacyc : AcyclicBounded pkgs) :
    pkgLevelsFps pkgs = Except.ok (levelFps pkgs) := by
  unfold pkgLevelsFps
  rw [createDepLevels_eq hfp hacyc]
  rfl

theorem le_foldr_max : ∀ {l : List Nat} {x : Nat}, x ∈ l →
    x ≤ l.foldr Nat.max 0 := by
  intro l
  induction l with
  | nil => intro x hx; exact absurd hx (List.not_mem_nil x)
  | cons y ys ih =>
    intro x hx
    rcases List.mem_cons.mp hx with heq | hmem
    · subst heq
      exact Nat.le_max_left _ _
    · exact le_trans (ih hmem) (Nat.le_max_right _ _)

theorem map_range_getD {α : Type} (f : Nat → List α) (n i : Nat) :
    ((List.range n).map f).getD i [] = if i < n then f i else [] := by
  rw [List.getD_eq_getElem?_getD, List.getElem?_map]
  by_cases hi : i < n
  · rw [List.getElem?_range hi]
    simp [hi]
  · rw [List.getElem?_eq_none (by simpa using hi)]
    simp [hi]

theorem getD_map_eq {α β : Type} (g : List α → List β) (hg : g [] = [])
    (l : List (List α)) (i : Nat) :
    (l.map g).getD i [] = g (l.getD i []) := by
  rw [List.getD_eq_getElem?_getD, List.getD_eq_getElem?_getD,
    List.getElem?_map]
  cases l[i]? <;> simp [hg]

theorem mem_levelFps_iff {pkgs : List Package} (hfp : nodupFps pkgs)
    {i : Nat} {fp' : String} :
    fp' ∈ (levelFps pkgs).getD i [] ↔
      ∃ p ∈ pkgs, depthNat pkgs p = i ∧ p.fingerprint = fp' := by
  unfold levelFps levelList
  rw [getD_map_eq _ rfl, map_range_getD]
  constructor
  · intro h
    by_cases hi : i < maxDepth pkgs + 1
    · rw [if_pos hi] at h
      rcases List.mem_map.mp h with ⟨p, hp, hfeq⟩
      have hp1 := List.mem_of_mem_filter hp
      have hp2 := List.of_mem_filter hp
      simp only [beq_iff_eq] at hp2
      exact ⟨p, (flat_perm hfp).mem_iff.mp hp1, hp2, hfeq⟩
    · rw [if_neg hi] at h
      exact absurd h (by simp)
  · intro h
    rcases h with ⟨p, hp, hdep, hfpe⟩
    have hpflat : p ∈ bucketFlat pkgs := (flat_perm hfp).mem_iff.mpr hp
    have hle : depthNat pkgs p ≤ maxDepth pkgs :=
      le_foldr_max (List.mem_map.mpr ⟨p, hpflat, rfl⟩)
    rw [if_pos (by omega)]
    refine List.mem_map.mpr ⟨p, ?_, hfpe⟩
    exact List.mem_filter.mpr ⟨hpflat, by simp [hdep]⟩

theorem levelFps_flatten_nodup {pkgs : List Package} (hfp : nodupFps pkgs) :
    (levelFps pkgs).flatten.Nodup := by
  have hpart : ((levelList pkgs).flatten).Perm (bucketFlat pkgs) := by
    unfold levelList
    refine flatten_partition (depthNat pkgs) (bucketFlat pkgs)
      (maxDepth pkgs + 1) ?_
    intro p hp
    have : depthNat pkgs p ≤ maxDepth pkgs :=
      le_foldr_max (List.mem_map.mpr ⟨p, hp, rfl⟩)
    omega
  have hmapj : (levelFps pkgs).flatten =
      ((levelList pkgs).flatten).map (fun p => p.fingerprint) := by
    unfold levelFps
    rw [List.map_flatten]
  rw [hmapj]
  have hperm2 : (((levelList pkgs).flatten).map (fun p => p.fingerprint)).Perm
      (pkgs.map (fun p => p.fingerprint)) :=
    (hpart.trans (flat_perm hfp)).map _
  exact (List.Perm.nodup_iff hperm2).mpr hfp

theorem levelFps_good {pkgs : List Package} (hfp : nodupFps pkgs)
    (hacyc : AcyclicBounded pkgs) :
    GoodLevels (levelFps pkgs) (depRel pkgs) := by
  refine ⟨levelFps_flatten_nodup hfp, ?_⟩
  intro i fp d hmem hdep
  rcases (mem_levelFps_iff hfp).mp hmem with ⟨pa, hpa, hdi, hfeq⟩
  rcases hdep with ⟨hreach, q, hq⟩
  have hfind : findPkg pkgs fp = some pa := hfeq ▸ findPkg_self hfp hpa
  have hsome := depthsOf_isSome_of_acyclic hacyc pa hpa
  obtain ⟨va, hva⟩ := Option.isSome_iff_exists.mp hsome
  rcases reaches_depth_lt hreach hfind hq hva with ⟨vc, hvc, hlt⟩
  have hdq : depthNat pkgs q = vc := by simp [depthNat, hvc]
  have hdpa : depthNat pkgs pa = va := by simp [depthNat, hva]
  refine ⟨vc, by omega, ?_⟩
  refine (mem_levelFps_iff hfp).mpr ⟨q, findPkg_mem hq, hdq, findPkg_fp hq⟩

/-! ## Discharging acyclicity on concrete package sets -/

theorem acyclicBounded_of_check (pkgs : List Package) (rank : String → Nat)
    (h1 : pkgs.all (fun p => decide (rank p.fingerprint < pkgs.length)) = true)
    (h2 : pkgs.all (fun p => p.dependencies.all (fun fp =>
        match findPkg pkgs fp with
        | none => true
        | some q => decide (rank q.fingerprint < rank p.fingerprint))) = true) :
    AcyclicBounded pkgs := by
  refine ⟨rank, ?_, ?_⟩
  · intro p hp
    have := (List.all_eq_true.mp h1) p hp
    simpa using this
  · intro p hp fp hfp q hq
    have hall := (List.all_eq_true.mp h2) p hp
    have hone := (List.all_eq_true.mp hall) fp hfp
    rw [hq] at hone
    simpa using hone

/-! ## Claim theorems -/

/-- The `{A (no deps), B→C, C→A}` scenario of the specification. -/
def chainPkgs : List Package :=
  [⟨"A", "a", []⟩, ⟨"B", "b", ["c"]⟩, ⟨"C", "c", ["a"]⟩]

/-- A topological rank for `chainPkgs`. -/
def chainRank (fp : String) : Nat :=
  if fp = "a" then 0 else if fp = "c" then 1 else 2

/-- C1: for every acyclic, dependency-closed package set, the Dependency
Bucket Builder assigns depth `0` to every package without dependencies
and `1 + max(depth of each dependency)` to every other package, and its
output — a permutation of the input — is ordered by non-decreasing depth,
with every package's dependencies strictly before it; on
`{A, B→C, C→A}` the produced build order is `A, C, B`. -/
theorem c1_bucket_leveling :
    (∀ pkgs : List Package, nodupFps pkgs → AcyclicBounded pkgs →
      ClosedDeps pkgs →
      ∃ out, createDepBuckets pkgs = Except.ok out ∧
        out.Perm pkgs ∧
        (∀ p ∈ pkgs, p.dependencies = [] → depthsOf pkgs p = some 0) ∧
        (∀ p ∈ pkgs, p.dependencies ≠ [] →
          depthsOf pkgs p = some ((depDepthList pkgs p).foldr Nat.max 0 + 1)) ∧
        out.Pairwise (fun a b => depthNat pkgs a ≤ depthNat pkgs b) ∧
        (∀ p ∈ pkgs, ∀ fp ∈ p.dependencies, ∀ q, findPkg pkgs fp = some q →
          out.indexOf q < out.indexOf p)) ∧
    createDepBuckets chainPkgs =
      Except.ok [⟨"A", "a", []⟩, ⟨"C", "c", ["a"]⟩, ⟨"B", "b", ["c"]⟩] := by
  constructor
  · intro pkgs hfp hacyc hclosed
    refine ⟨bucketFlat pkgs, createDepBuckets_eq_flat hfp hacyc, flat_perm hfp,
      ?_, ?_, flat_pairwise_depth hfp, ?_⟩
    · intro p hp hdeps
      exact depthsOf_nil_deps hp hdeps
    · intro p hp hdeps
      exact depthsOf_cons_deps hacyc hclosed hp hdeps
    · intro p hp fp hfp' q hq
      have hsome := depthsOf_isSome_of_acyclic hacyc p hp
      obtain ⟨vp, hvp⟩ := Option.isSome_iff_exists.mp hsome
      rcases depth_dep_lt hvp hfp' hq with ⟨vq, hvq, hlt⟩
      have hdq : depthNat pkgs q = vq := by simp [depthNat, hvq]
      have hdp : depthNat pkgs p = vp := by simp [depthNat, hvp]
      have hqm : q ∈ bucketFlat pkgs := (flat_perm hfp).mem_iff.mpr (findPkg_mem hq)
      have hpm : p ∈ bucketFlat pkgs := (flat_perm hfp).mem_iff.mpr hp
      refine pairwise_indexOf_lt (flat_pairwise_depth hfp) hqm hpm ?_ ?_
      · intro hle
        rw [hdq, hdp] at hle
        omega
      · intro heq
        rw [heq, hdp] at hdq
        omega
  · rfl

/-- C1 witness: the general statement applied to the concrete chain
scenario. -/
theorem c1_bucket_leveling_witness :
    ∃ out, createDepBuckets chainPkgs = Except.ok out ∧
      out.Perm chainPkgs ∧
      (∀ p ∈ chainPkgs, p.dependencies = [] →
        depthsOf chainPkgs p = some 0) ∧
      (∀ p ∈ chainPkgs, p.dependencies ≠ [] →
        depthsOf chainPkgs p =
          some ((depDepthList chainPkgs p).foldr Nat.max 0 + 1)) ∧
      out.Pairwise (fun a b => depthNat chainPkgs a ≤ depthNat chainPkgs b) ∧
      (∀ p ∈ chainPkgs, ∀ fp ∈ p.dependencies, ∀ q,
        findPkg chainPkgs fp = some q → out.indexOf q < out.indexOf p) :=
  c1_bucket_leveling.1 chainPkgs (by decide)
    (acyclicBounded_of_check chainPkgs chainRank (by decide) (by decide))
    (by decide)

/-- C3: a package set with a dependency cycle makes the bucket builder
fail with a graph error naming offending packages — it never returns a
(partial) order. -/
theorem c3_cycle_rejected :
    ∀ (pkgs : List Package) (fp : String) (p : Package),
      findPkg pkgs fp = some p → Reaches pkgs fp fp →
      ∃ names, createDepBuckets pkgs = Except.error (GraphError.cycle names) ∧
        p.name ∈ names ∧ names ≠ [] := by
  intro pkgs fp p hp hcyc
  exact createDepBuckets_cycle_error (findPkg_mem hp) (cycle_depth_none hcyc hp)

/-- The `A→B→A` scenario of the specification. -/
def cycPkgs : List Package :=
  [⟨"A", "a", ["b"]⟩, ⟨"B", "b", ["a"]⟩]

/-- C3 witness: the cyclic two-package set is rejected with a graph error
naming the cycle. -/
theorem c3_cycle_rejected_witness :
    ∃ names, createDepBuckets cycPkgs = Except.error (GraphError.cycle names) ∧
      (Package.mk "A" "a" ["b"]).name ∈ names ∧ names ≠ [] :=
  c3_cycle_rejected cycPkgs "a" ⟨"A", "a", ["b"]⟩ rfl
    (Reaches.trans "a" "b" "a"
      (Reaches.base "a" "b" ⟨"A", "a", ["b"]⟩ rfl (by decide))
      (Reaches.base "b" "a" ⟨"B", "b", ["a"]⟩ rfl (by decide)))

theorem not_all_isSome {pkgs : List Package}
    (h : ¬ ∀ p ∈ pkgs, (depthsOf pkgs p).isSome = true) :
    ∃ p ∈ pkgs, depthsOf pkgs p = none := by
  push_neg at h
  rcases h with ⟨p, hp, hns⟩
  refine ⟨p, hp, ?_⟩
  cases hx : depthsOf pkgs p with
  | none => rfl
  | some v => rw [hx] at hns; simp at hns

theorem levelsView_congr {pkgs₁ pkgs₂ : List Package}
    (h : ∀ p, depthNat pkgs₁ p = depthNat pkgs₂ p) (flat : List Package) :
    (List.range ((flat.map (depthNat pkgs₁)).foldr Nat.max 0 + 1)).map
      (fun d => flat.filter (fun p => depthNat pkgs₁ p == d)) =
    (List.range ((flat.map (depthNat pkgs₂)).foldr Nat.max 0 + 1)).map
      (fun d => flat.filter (fun p => depthNat pkgs₂ p == d)) := by
  have hmap : flat.map (depthNat pkgs₁) = flat.map (depthNat pkgs₂) :=
    List.map_congr_left (fun p _ => h p)
  rw [hmap]
  refine List.map_congr_left (fun d _ => ?_)
  exact List.filter_congr (fun p _ => by rw [h p])

/-- C7: the bucket builder is deterministic — two enumerations of the
same package set get the same depth for every package, and the same
bucket output and level partition. -/
theorem c7_bucket_determinism :
    ∀ pkgs₁ pkgs₂ : List Package, pkgs₁.Perm pkgs₂ → nodupFps pkgs₁ →
      (∀ p, depthsOf pkgs₁ p = depthsOf pkgs₂ p) ∧
      (∀ out, createDepBuckets pkgs₁ = Except.ok out ↔
        createDepBuckets pkgs₂ = Except.ok out) ∧
      (∀ lv, createDepLevels pkgs₁ = Except.ok lv ↔
        createDepLevels pkgs₂ = Except.ok lv) := by
  intro pkgs₁ pkgs₂ hperm hfp
  have hfp₂ : nodupFps pkgs₂ := nodupFps_perm hperm hfp
  have hd : ∀ p, depthsOf pkgs₁ p = depthsOf pkgs₂ p := depthsOf_perm hperm hfp
  have hdn : ∀ p, depthNat pkgs₁ p = depthNat pkgs₂ p := by
    intro p
    unfold depthNat
    rw [hd p]
  have hok : ∀ out, createDepBuckets pkgs₁ = Except.ok out ↔
      createDepBuckets pkgs₂ = Except.ok out := by
    intro out
    by_cases hall : ∀ p ∈ pkgs₁, (depthsOf pkgs₁ p).isSome = true
    · have hall₂ : ∀ p ∈ pkgs₂, (depthsOf pkgs₂ p).isSome = true := by
        intro p hp
        rw [← hd p]
        exact hall p (hperm.mem_iff.mpr hp)
      constructor
      · exact createDepBuckets_perm_ok hperm hfp hall
      · exact createDepBuckets_perm_ok hperm.symm hfp₂ hall₂
    · rcases not_all_isSome hall with ⟨p, hp, hnone⟩
      have hnone₂ : depthsOf pkgs₂ p = none := hd p ▸ hnone
      rcases createDepBuckets_cycle_error hp hnone with ⟨n₁, he₁, _, _⟩
      rcases createDepBuckets_cycle_error (hperm.mem_iff.mp hp) hnone₂ with
        ⟨n₂, he₂, _, _⟩
      constructor
      · intro hc
        rw [he₁] at hc
        exact absurd hc (by simp)
      · intro hc
        rw [he₂] at hc
        exact absurd hc (by simp)
  refine ⟨hd, hok, ?_⟩
  intro lv
  unfold createDepLevels
  cases h₁ : createDepBuckets pkgs₁ with
  | error e =>
    have h₂ : ∀ out, ¬ createDepBuckets pkgs₂ = Except.ok out := by
      intro out hc
      have := (hok out).mpr hc
      rw [h₁] at this
      exact absurd this (by simp)
    cases h₂' : createDepBuckets pkgs₂ with
    | error e₂ => simp [Except.map]
    | ok out₂ => exact absurd h₂' (h₂ out₂)
  | ok out =>
    have h₂ : createDepBuckets pkgs₂ = Except.ok out := (hok out).mp h₁
    rw [h₂]
    simp only [Except.map]
    rw [levelsView_congr hdn out]

/-- A second enumeration of the chain scenario. -/
def chainPkgs2 : List Package :=
  [⟨"C", "c", ["a"]⟩, ⟨"A", "a", []⟩, ⟨"B", "b", ["c"]⟩]

/-- C7 witness: the two enumerations of the chain scenario agree. -/
theorem c7_bucket_determinism_witness :
    createDepBuckets chainPkgs2 =
      Except.ok [⟨"A", "a", []⟩, ⟨"C", "c", ["a"]⟩, ⟨"B", "b", ["c"]⟩] :=
  ((c7_bucket_determinism chainPkgs chainPkgs2 (by decide) (by decide)).2.1
    [⟨"A", "a", []⟩, ⟨"C", "c", ["a"]⟩, ⟨"B", "b", ["c"]⟩]).mp rfl

/-- C5: the prune step drops a candidate exactly when its own artifact is
cached, independently of its dependencies' cache status; with only
`ruby-2.5` cached in the basic scenario, exactly `consul` and `go-1.4`
remain, in gather order. -/
theorem c5_prune_independent :
    (∀ (isCompiled : Package → Bool) (pkgs : List Package) (p : Package),
      p ∈ removeCompiledPackages isCompiled pkgs ↔
        p ∈ pkgs ∧ isCompiled p = false) ∧
    (∀ (cache₁ cache₂ : List String) (pkgs : List Package) (p : Package),
      (p.fingerprint ∈ cache₁ ↔ p.fingerprint ∈ cache₂) →
      (p ∈ removeCompiledPackages (isCompiledIn cache₁) pkgs ↔
        p ∈ removeCompiledPackages (isCompiledIn cache₂) pkgs)) ∧
    removeCompiledPackages (isCompiledIn ["ruby-2.5"])
        (gatherPackages basicReleases none) =
      [⟨"consul", "consul", ["go-1.4"]⟩, ⟨"go-1.4", "go-1.4", []⟩] := by
  have hmem : ∀ (isCompiled : Package → Bool) (pkgs : List Package)
      (p : Package), p ∈ removeCompiledPackages isCompiled pkgs ↔
        p ∈ pkgs ∧ isCompiled p = false := by
    intro isCompiled pkgs p
    unfold removeCompiledPackages
    rw [List.mem_filter]
    simp
  refine ⟨hmem, ?_, rfl⟩
  intro cache₁ cache₂ pkgs p h
  rw [hmem, hmem]
  unfold isCompiledIn
  constructor
  · rintro ⟨hp, hc⟩
    refine ⟨hp, ?_⟩
    simp only [decide_eq_false_iff_not] at hc ⊢
    exact fun hx => hc (h.mpr hx)
  · rintro ⟨hp, hc⟩
    refine ⟨hp, ?_⟩
    simp only [decide_eq_false_iff_not] at hc ⊢
    exact fun hx => hc (h.mp hx)

/-- C5 witness: two caches agreeing on `go-1.4` (it is in neither) prune
it identically, regardless of what else they cache. -/
theorem c5_prune_independent_witness :
    (Package.mk "go-1.4" "go-1.4" []) ∈
      removeCompiledPackages (isCompiledIn ["ruby-2.5", "consul"])
        (gatherPackages basicReleases none) :=
  (c5_prune_independent.2.1 ["ruby-2.5"] ["ruby-2.5", "consul"]
    (gatherPackages basicReleases none) ⟨"go-1.4", "go-1.4", []⟩
    (by decide)).mp (by decide)

/-- C10: the gather step deduplicates by fingerprint — the result has
pairwise distinct fingerprints, keeps the first package encountered per
fingerprint, loses no fingerprint, and on
`{ruby-2.5, go-1.4.1:G, go-1.4:G}` yields `[ruby-2.5, go-1.4.1]`. -/
theorem c10_gather_dedup :
    (∀ releases : List Release, nodupFps (gatherPackages releases none)) ∧
    (∀ (releases : List Release) (p : Package),
      p ∈ gatherPackages releases none →
      (allOf releases).find? (fun q => q.fingerprint == p.fingerprint) =
        some p) ∧
    (∀ (releases : List Release) (fp : String),
      (∃ p ∈ allOf releases, p.fingerprint = fp) →
      ∃ p ∈ gatherPackages releases none, p.fingerprint = fp) ∧
    gatherPackages (genTestCase ["ruby-2.5", "go-1.4.1:G", "go-1.4:G"]) none =
      [⟨"ruby-2.5", "ruby-2.5", []⟩, ⟨"go-1.4.1", "G", []⟩] := by
  refine ⟨?_, ?_, ?_, rfl⟩
  · intro releases
    exact dedupByFpAux_nodup [] _
  · intro releases p hp
    exact dedupByFpAux_find hp
  · intro releases fp h
    exact dedupByFpAux_covers (by simp) h

/-- C10 witness: the gather result of the duplicate-fingerprint scenario
keeps the first `G` package. -/
theorem c10_gather_dedup_witness :
    (allOf (genTestCase ["ruby-2.5", "go-1.4.1:G", "go-1.4:G"])).find?
      (fun q => q.fingerprint == (Package.mk "go-1.4.1" "G" []).fingerprint) =
      some ⟨"go-1.4.1", "G", []⟩ :=
  c10_gather_dedup.2.1 (genTestCase ["ruby-2.5", "go-1.4.1:G", "go-1.4:G"])
    ⟨"go-1.4.1", "G", []⟩ (by decide)

/-- C6: with a deployment descriptor, the gather step returns exactly the
release packages whose fingerprint is referenced by the descriptor's jobs
or transitively reachable from a referenced package through dependency
edges; without a descriptor it returns all packages of all releases.  On
the tor release, `tor` and its unreferenced dependency `libevent` are
gathered while `boguspackage` is not. -/
theorem c6_gather_reachable :
    (∀ (releases : List Release) (m : RoleManifest) (fp : String),
      (∃ p ∈ gatherPackages releases (some m), p.fingerprint = fp) ↔
        ((∃ p ∈ allOf releases, p.fingerprint = fp) ∧
          (fp ∈ referencedFps m ∨
            ∃ s ∈ referencedFps m, Reaches (allOf releases) s fp))) ∧
    (∀ (releases : List Release) (fp : String),
      (∃ p ∈ gatherPackages releases none, p.fingerprint = fp) ↔
        ∃ p ∈ allOf releases, p.fingerprint = fp) ∧
    gatherPackages [torRelease] (some torManifest) =
      [⟨"tor", "tor-fp", ["libevent-fp"]⟩, ⟨"libevent", "libevent-fp", []⟩] := by
  refine ⟨?_, ?_, rfl⟩
  · intro releases m fp
    constructor
    · rintro ⟨p, hp, hpfp⟩
      simp only [gatherPackages] at hp
      rcases dedupByFpAux_mem hp with ⟨hmem, _⟩
      rcases List.mem_filter.mp hmem with ⟨hall, hcl⟩
      simp only [decide_eq_true_eq] at hcl
      subst hpfp
      exact ⟨⟨p, hall, rfl⟩, closureList_sound hcl⟩
    · rintro ⟨⟨q, hq, hqfp⟩, hreach⟩
      have hcl : fp ∈ closureList (allOf releases) (referencedFps m) := by
        rcases hreach with hs | ⟨s, hs, hr⟩
        · exact seed_subset_closureList _ _ hs
        · exact reaches_mem_closureList hr (seed_subset_closureList _ _ hs)
      simp only [gatherPackages]
      refine dedupByFpAux_covers (by simp) ⟨q, ?_, hqfp⟩
      refine List.mem_filter.mpr ⟨hq, by simp [hqfp, hcl]⟩
  · intro releases fp
    constructor
    · rintro ⟨p, hp, hpfp⟩
      simp only [gatherPackages] at hp
      exact ⟨p, (dedupByFpAux_mem hp).1, hpfp⟩
    · intro h
      simp only [gatherPackages]
      exact dedupByFpAux_covers (by simp) h

/-- C6 witness: `libevent-fp` is gathered for the tor deployment, being
reachable from the referenced `tor` package. -/
theorem c6_gather_reachable_witness :
    ∃ p ∈ gatherPackages [torRelease] (some torManifest),
      p.fingerprint = "libevent-fp" :=
  ((c6_gather_reachable.1 [torRelease] torManifest "libevent-fp").mpr
    ⟨⟨⟨"libevent", "libevent-fp", []⟩, by decide, rfl⟩,
      Or.inr ⟨"tor-fp", by decide,
        Reaches.base "tor-fp" "libevent-fp" ⟨"tor", "tor-fp", ["libevent-fp"]⟩
          rfl (by decide)⟩⟩)

/-- C4: `Compile` succeeds exactly when the accumulated failed and
skipped package sets are both empty; with every build failing on the
basic scenario it returns the aggregated error naming both failed
packages and the dependency-skipped `consul`, and an empty input
completes without error. -/
theorem c4_compile_aggregation :
    (∀ (releases : List Release) (manifest : Option RoleManifest)
        (cache : List String) (build : String → Bool),
      compile releases manifest cache build = Except.ok () ↔
        ∃ lv, pkgLevelsFps (removeCompiledPackages (isCompiledIn cache)
            (gatherPackages releases manifest)) = Except.ok lv ∧
          (processLevels (removeCompiledPackages (isCompiledIn cache)
            (gatherPackages releases manifest)) build lv).1 = [] ∧
          (processLevels (removeCompiledPackages (isCompiledIn cache)
            (gatherPackages releases manifest)) build lv).2 = []) ∧
    compile basicReleases none [] (fun _ => false) =
      Except.error (CompileError.aggregated ["go-1.4", "ruby-2.5"] ["consul"]) ∧
    compile [] none [] (fun _ => false) = Except.ok () := by
  refine ⟨?_, rfl, rfl⟩
  intro releases manifest cache build
  rcases hE : pkgLevelsFps (removeCompiledPackages (isCompiledIn cache)
      (gatherPackages releases manifest)) with e | lv
  · simp only [compile, hE]
    constructor
    · intro hc
      exact absurd hc (by simp)
    · rintro ⟨lv, hlv, _, _⟩
      exact absurd hlv (by simp)
  · simp only [compile, hE]
    by_cases hif : ((processLevels (removeCompiledPackages (isCompiledIn cache)
        (gatherPackages releases manifest)) build lv).1.isEmpty &&
        (processLevels (removeCompiledPackages (isCompiledIn cache)
        (gatherPackages releases manifest)) build lv).2.isEmpty) = true
    · rw [if_pos hif]
      have hsplit := hif
      rw [Bool.and_eq_true] at hsplit
      constructor
      · intro _
        exact ⟨lv, rfl, List.isEmpty_iff.mp hsplit.1, List.isEmpty_iff.mp hsplit.2⟩
      · intro _
        rfl
    · rw [if_neg hif]
      constructor
      · intro hc
        exact absurd hc (by simp)
      · rintro ⟨lv', hlv', h1, h2⟩
        have hl : lv' = lv := (Except.ok.inj hlv').symm
        subst hl
        refine absurd ?_ hif
        rw [Bool.and_eq_true, List.isEmpty_iff, List.isEmpty_iff]
        exact ⟨h1, h2⟩

/-- C4 witness: the iff applied to the all-successful basic scenario. -/
theorem c4_compile_aggregation_witness :
    compile basicReleases none [] (fun _ => true) = Except.ok () :=
  (c4_compile_aggregation.1 basicReleases none [] (fun _ => true)).mpr
    ⟨[["go-1.4", "ruby-2.5"], ["consul"]], rfl, rfl, rfl⟩

/-- C9: a successful (or cache-hit) package build leaves the container
set unchanged; a failed build leaves it unchanged when the retention
flag is off, and leaves exactly the one build container when it is on;
no pre-existing container is ever removed. -/
theorem c9_container_lifecycle :
    ∀ (keepContainer succeeded alreadyCompiled : Bool) (st : List String)
      (id : String), id ∉ st →
      ((succeeded = true →
        applyOps st (compilePackageOps keepContainer succeeded
          alreadyCompiled id) = st) ∧
      (succeeded = false → alreadyCompiled = false → keepContainer = false →
        applyOps st (compilePackageOps keepContainer succeeded
          alreadyCompiled id) = st) ∧
      (succeeded = false → alreadyCompiled = false → keepContainer = true →
        applyOps st (compilePackageOps keepContainer succeeded
          alreadyCompiled id) = st ++ [id]) ∧
      (∀ c ∈ st, c ∈ applyOps st (compilePackageOps keepContainer succeeded
        alreadyCompiled id))) := by
  have hcd : ∀ (st : List String) (id : String), id ∉ st →
      applyOps st [DockerOp.create id, DockerOp.destroy id] = st := by
    intro st id h
    show ((st ++ [id]).erase id) = st
    rw [List.erase_append_right _ h]
    simp
  intro keepContainer succeeded alreadyCompiled st id hfresh
  refine ⟨?_, ?_, ?_, ?_⟩
  · intro hs
    subst hs
    cases alreadyCompiled with
    | true => rfl
    | false => exact hcd st id hfresh
  · intro hs ha hk
    subst hs
    subst ha
    subst hk
    exact hcd st id hfresh
  · intro hs ha hk
    subst hs
    subst ha
    subst hk
    rfl
  · intro c hc
    cases succeeded with
    | true =>
      cases alreadyCompiled with
      | true => exact hc
      | false =>
        rw [show compilePackageOps keepContainer true false id =
          [DockerOp.create id, DockerOp.destroy id] from rfl,
          hcd st id hfresh]
        exact hc
    | false =>
      cases alreadyCompiled with
      | true => exact hc
      | false =>
        cases keepContainer with
        | true => exact List.mem_append_left _ hc
        | false =>
          rw [show compilePackageOps false false false id =
            [DockerOp.create id, DockerOp.destroy id] from rfl,
            hcd st id hfresh]
          exact hc

/-- C9 witness: the failed-build, retention-on case adds exactly the one
build container to the pre-existing set. -/
theorem c9_container_lifecycle_witness :
    applyOps ["old"] (compilePackageOps true false false "new") =
      ["old"] ++ ["new"] :=
  (c9_container_lifecycle true false false ["old"] "new" (by decide)).2.2.1
    rfl rfl rfl

/-- A topological rank for the basic scenario's package set. -/
def basicRank (fp : String) : Nat :=
  if fp = "consul" then 1 else 0

/-- C2: on levels produced by `Compile`'s pipeline over an acyclic,
fingerprint-distinct package set, every reachable scheduler state has no
two running builds of one fingerprint, and every start event is preceded
by finish events of all the package's resolvable transitive
dependencies.  In particular, on `{ruby-2.5, go-1.4, consul→go-1.4}`,
`go-1.4` always finishes before `consul` starts, while complete runs
exist with `ruby-2.5` finishing before `go-1.4` starts and with
`ruby-2.5` starting after `go-1.4` finishes. -/
theorem c2_compile_ordering :
    (∀ (pkgs : List Package) (lv : List (List String)) (W : Nat)
        (s : SchedSt),
      nodupFps pkgs → AcyclicBounded pkgs →
      pkgLevelsFps pkgs = Except.ok lv → Reached W lv s →
      s.running.Nodup ∧
      (∀ a t₁ t₂, s.trace = t₁ ++ Ev.start a :: t₂ →
        ∀ d q, Reaches pkgs a d → findPkg pkgs d = some q →
          Ev.finish d ∈ t₁)) ∧
    pkgLevelsFps basicPkgs = Except.ok [["go-1.4", "ruby-2.5"], ["consul"]] ∧
    (∀ (W : Nat) (s : SchedSt),
      Reached W [["go-1.4", "ruby-2.5"], ["consul"]] s →
      ∀ t₁ t₂, s.trace = t₁ ++ Ev.start "consul" :: t₂ →
        Ev.finish "go-1.4" ∈ t₁) ∧
    (∃ s, Reached 1 [["go-1.4", "ruby-2.5"], ["consul"]] s ∧
      s.current = [] ∧ s.running = [] ∧ s.rest = [] ∧
      s.trace = [Ev.start "ruby-2.5", Ev.finish "ruby-2.5",
        Ev.start "go-1.4", Ev.finish "go-1.4",
        Ev.start "consul", Ev.finish "consul"]) ∧
    (∃ s, Reached 1 [["go-1.4", "ruby-2.5"], ["consul"]] s ∧
      s.current = [] ∧ s.running = [] ∧ s.rest = [] ∧
      s.trace = [Ev.start "go-1.4", Ev.finish "go-1.4",
        Ev.start "ruby-2.5", Ev.finish "ruby-2.5",
        Ev.start "consul", Ev.finish "consul"]) := by
  have hgen : ∀ (pkgs : List Package) (lv : List (List String)) (W : Nat)
      (s : SchedSt),
      nodupFps pkgs → AcyclicBounded pkgs →
      pkgLevelsFps pkgs = Except.ok lv → Reached W lv s →
      s.running.Nodup ∧
      (∀ a t₁ t₂, s.trace = t₁ ++ Ev.start a :: t₂ →
        ∀ d q, Reaches pkgs a d → findPkg pkgs d = some q →
          Ev.finish d ∈ t₁) := by
    intro pkgs lv W s hfp hacyc hlv hs
    have hlv' : lv = levelFps pkgs := by
      rw [pkgLevelsFps_eq hfp hacyc] at hlv
      exact (Except.ok.inj hlv).symm
    subst hlv'
    have hG := levelFps_good hfp hacyc
    refine ⟨reached_running_nodup hG hs, ?_⟩
    intro a t₁ t₂ hdec d q hreach hq
    exact reached_trace_order hG hs a t₁ t₂ hdec d ⟨hreach, q, hq⟩
  have hbasic : nodupFps basicPkgs := by decide
  have hacycB : AcyclicBounded basicPkgs :=
    acyclicBounded_of_check basicPkgs basicRank (by decide) (by decide)
  refine ⟨hgen, rfl, ?_, ?_, ?_⟩
  · intro W s hs t₁ t₂ hdec
    have h := (hgen basicPkgs [["go-1.4", "ruby-2.5"], ["consul"]] W s
      hbasic hacycB rfl hs).2
    refine h "consul" t₁ t₂ hdec "go-1.4" ⟨"go-1.4", "go-1.4", []⟩ ?_ rfl
    exact Reaches.base "consul" "go-1.4" ⟨"consul", "consul", ["go-1.4"]⟩
      rfl (by decide)
  · refine ⟨⟨[], [], [],
      [Ev.start "ruby-2.5", Ev.finish "ruby-2.5", Ev.start "go-1.4",
        Ev.finish "go-1.4", Ev.start "consul", Ev.finish "consul"]⟩,
      ?_, rfl, rfl, rfl, rfl⟩
    refine Relation.ReflTransGen.tail (Relation.ReflTransGen.tail
      (Relation.ReflTransGen.tail (Relation.ReflTransGen.tail
      (Relation.ReflTransGen.tail (Relation.ReflTransGen.tail
      (Relation.ReflTransGen.tail (Relation.ReflTransGen.tail
      (Relation.ReflTransGen.refl)
      (SchedStep.advance ["go-1.4", "ruby-2.5"] [["consul"]] []))
      (SchedStep.startB "ruby-2.5" ["go-1.4", "ruby-2.5"] [] [["consul"]]
        [] (by decide) (by decide)))
      (SchedStep.finishB "ruby-2.5" ["go-1.4"] ["ruby-2.5"] [["consul"]]
        [Ev.start "ruby-2.5"] (by decide)))
      (SchedStep.startB "go-1.4" ["go-1.4"] [] [["consul"]]
        [Ev.start "ruby-2.5", Ev.finish "ruby-2.5"] (by decide) (by decide)))
      (SchedStep.finishB "go-1.4" [] ["go-1.4"] [["consul"]]
        [Ev.start "ruby-2.5", Ev.finish "ruby-2.5", Ev.start "go-1.4"]
        (by decide)))
      (SchedStep.advance ["consul"] []
        [Ev.start "ruby-2.5", Ev.finish "ruby-2.5", Ev.start "go-1.4",
          Ev.finish "go-1.4"]))
      (SchedStep.startB "consul" ["consul"] [] []
        [Ev.start "ruby-2.5", Ev.finish "ruby-2.5", Ev.start "go-1.4",
          Ev.finish "go-1.4"] (by decide) (by decide)))
      (SchedStep.finishB "consul" [] ["consul"] []
        [Ev.start "ruby-2.5", Ev.finish "ruby-2.5", Ev.start "go-1.4",
          Ev.finish "go-1.4", Ev.start "consul"] (by decide))
  · refine ⟨⟨[], [], [],
      [Ev.start "go-1.4", Ev.finish "go-1.4", Ev.start "ruby-2.5",
        Ev.finish "ruby-2.5", Ev.start "consul", Ev.finish "consul"]⟩,
      ?_, rfl, rfl, rfl, rfl⟩
    refine Relation.ReflTransGen.tail (Relation.ReflTransGen.tail
      (Relation.ReflTransGen.tail (Relation.ReflTransGen.tail
      (Relation.ReflTransGen.tail (Relation.ReflTransGen.tail
      (Relation.ReflTransGen.tail (Relation.ReflTransGen.tail
      (Relation.ReflTransGen.refl)
      (SchedStep.advance ["go-1.4", "ruby-2.5"] [["consul"]] []))
      (SchedStep.startB "go-1.4" ["go-1.4", "ruby-2.5"] [] [["consul"]]
        [] (by decide) (by decide)))
      (SchedStep.finishB "go-1.4" ["ruby-2.5"] ["go-1.4"] [["consul"]]
        [Ev.start "go-1.4"] (by decide)))
      (SchedStep.startB "ruby-2.5" ["ruby-2.5"] [] [["consul"]]
        [Ev.start "go-1.4", Ev.finish "go-1.4"] (by decide) (by decide)))
      (SchedStep.finishB "ruby-2.5" [] ["ruby-2.5"] [["consul"]]
        [Ev.start "go-1.4", Ev.finish "go-1.4", Ev.start "ruby-2.5"]
        (by decide)))
      (SchedStep.advance ["consul"] []
        [Ev.start "go-1.4", Ev.finish "go-1.4", Ev.start "ruby-2.5",
          Ev.finish "ruby-2.5"]))
      (SchedStep.startB "consul" ["consul"] [] []
        [Ev.start "go-1.4", Ev.finish "go-1.4", Ev.start "ruby-2.5",
          Ev.finish "ruby-2.5"] (by decide) (by decide)))
      (SchedStep.finishB "consul" [] ["consul"] []
        [Ev.start "go-1.4", Ev.finish "go-1.4", Ev.start "ruby-2.5",
          Ev.finish "ruby-2.5", Ev.start "consul"] (by decide))

/-- C2 witness: the general ordering statement applied to the basic
scenario at the initial scheduler state. -/
theorem c2_compile_ordering_witness :
    SchedSt.running ⟨[], [], [["go-1.4", "ruby-2.5"], ["consul"]], []⟩
      |>.Nodup :=
  (c2_compile_ordering.1 basicPkgs [["go-1.4", "ruby-2.5"], ["consul"]] 1
    ⟨[], [], [["go-1.4", "ruby-2.5"], ["consul"]], []⟩ (by decide)
    (acyclicBounded_of_check basicPkgs basicRank (by decide) (by decide))
    rfl Relation.ReflTransGen.refl).1

/-- The two independent single-package releases of the parallelism
test. -/
def parallelReleases : List Release :=
  [⟨"release-one", [⟨"package-one", "package-one", []⟩]⟩,
   ⟨"release-two", [⟨"package-two", "package-two", []⟩]⟩]

/-- C8: with worker bound `2` and two independent single-package
releases, both packages land in one level and the scheduler reaches a
state where both builds are running at once, as well as a completed run
whose trace starts both builds before either finishes. -/
theorem c8_parallel_compilation :
    pkgLevelsFps (removeCompiledPackages (isCompiledIn [])
        (gatherPackages parallelReleases none)) =
      Except.ok [["package-one", "package-two"]] ∧
    (∃ s, Reached 2 [["package-one", "package-two"]] s ∧
      "package-one" ∈ s.running ∧ "package-two" ∈ s.running) ∧
    (∃ s, Reached 2 [["package-one", "package-two"]] s ∧
      s.current = [] ∧ s.running = [] ∧ s.rest = [] ∧
      s.trace = [Ev.start "package-one", Ev.start "package-two",
        Ev.finish "package-one", Ev.finish "package-two"]) := by
  have h2 : Reached 2 [["package-one", "package-two"]]
      ⟨[], ["package-two", "package-one"], [],
        [Ev.start "package-one", Ev.start "package-two"]⟩ := by
    refine Relation.ReflTransGen.tail (Relation.ReflTransGen.tail
      (Relation.ReflTransGen.tail (Relation.ReflTransGen.refl)
      (SchedStep.advance ["package-one", "package-two"] [] []))
      (SchedStep.startB "package-one" ["package-one", "package-two"] [] []
        [] (by decide) (by decide)))
      (SchedStep.startB "package-two" ["package-two"] ["package-one"] []
        [Ev.start "package-one"] (by decide) (by decide))
  refine ⟨rfl, ⟨_, h2, by decide, by decide⟩, ?_⟩
  refine ⟨⟨[], [], [],
    [Ev.start "package-one", Ev.start "package-two",
      Ev.finish "package-one", Ev.finish "package-two"]⟩, ?_,
    rfl, rfl, rfl, rfl⟩
  refine Relation.ReflTransGen.tail (Relation.ReflTransGen.tail h2
    (SchedStep.finishB "package-one" []
      ["package-two", "package-one"] []
      [Ev.start "package-one", Ev.start "package-two"] (by decide)))
    (SchedStep.finishB "package-two" [] ["package-two"] []
      [Ev.start "package-one", Ev.start "package-two",
        Ev.finish "package-one"] (by decide))

end Fissile
